import Mathlib

/-! Verification development for the Markdown-backlog / project-board
synchronization scripts (populate direction and sync-from direction).

The JavaScript sources are shallowly embedded: each JS function that the
claims mention is translated into an executable Lean definition over explicit
state; remote calls become pure state transformations or traced events. -/

namespace Sync



/-! ## JS value primitives -/

/-- A scalar front-matter / board value as it occurs in the scripts:
either a string or a number (YAML scalars).  JS numbers are modelled as
rationals; NaN is represented by `Option.none` at use sites. -/

inductive JVal where
  | str (s : String)
  | num (q : ℚ)
deriving DecidableEq, Repr

/-- JS `String.prototype.trim`, modelled on the character list (core
`String.trim` is not kernel-reducible). -/

def jsTrim (s : String) : String :=
  String.mk (((s.data.dropWhile Char.isWhitespace).reverse.dropWhile Char.isWhitespace).reverse)

/-- JS `String.prototype.toLowerCase`, modelled on the character list. -/

def jsToLower (s : String) : String :=
  String.mk (s.data.map Char.toLower)

/-- Digits-to-Nat accumulator for the decimal parser. -/

def digitsToNat (cs : List Char) : Nat :=
  cs.foldl (fun acc c => acc * 10 + (c.toNat - '0'.toNat)) 0

/-- Parse an unsigned decimal literal (integer part, optional dot, optional
fraction part), as JS `Number` accepts for plain decimal strings.
Returns `none` for NaN. -/

def parseDecCore (cs : List Char) : Option ℚ :=
  let ip := cs.takeWhile Char.isDigit
  let rest := cs.dropWhile Char.isDigit
  match rest with
  | [] => if ip.isEmpty then none else some (digitsToNat ip : ℚ)
  | '.' :: fp =>
    if fp.all Char.isDigit ∧ (ip ≠ [] ∨ fp ≠ []) then
      some ((digitsToNat ip : ℚ) + (digitsToNat fp : ℚ) / (10 : ℚ) ^ fp.length)
    else none
  | _ => none

/-- JS `Number(string)` coercion restricted to plain decimal literals
(hex, exponent and Infinity forms are outside the model): the string is
trimmed, the empty string coerces to 0, otherwise an optionally signed
decimal literal is parsed; anything else is NaN (`none`). -/

def jsStrToNum (s : String) : Option ℚ :=
  let t := jsTrim s
  if t = "" then some 0
  else
    match t.data with
    | '+' :: cs => parseDecCore cs
    | '-' :: cs => (parseDecCore cs).map (fun q => -q)
    | cs => parseDecCore cs

/-- JS `Number(value)`: numbers pass through, strings are parsed.
`none` stands for NaN. -/

def jsNumber : JVal → Option ℚ
  | .num q => some q
  | .str s => jsStrToNum s

/-- JS `String(value)`.  Number printing is approximated (integers print
exactly; non-integers use the rational printer); every claim instantiates
this on string values only. -/

def jstring : JVal → String
  | .str s => s
  | .num q => if q.den = 1 then toString q.num else toString q

/-- The scripts' `mdToBool` on a string value:
`typeof v === "string" ? v.trim().length > 0 : !!v`. -/

def mdToBoolS (s : String) : Bool :=
  (jsTrim s).length > 0

/-- The scripts' `mdToBool` on an optional scalar front-matter value:
absent and `undefined` values are falsy, strings are non-blank-tested,
numbers are truthy iff nonzero. -/

def mdToBoolJ : Option JVal → Bool
  | none => false
  | some (.str s) => mdToBoolS s
  | some (.num q) => decide (q ≠ 0)

/-- JS `String.prototype.startsWith`, modelled on the character list. -/

def jsStartsWith (s pre : String) : Bool :=
  pre.data.isPrefixOf s.data

/-! ## Field schema and setFieldValue (project board client) -/

/-- Project field data types appearing in the scripts' `switch`;
`OTHER` covers every data type outside the four handled cases
(the source's `default: return`). -/

inductive DataType where
  | SINGLE_SELECT | NUMBER | DATE | TEXT | OTHER
deriving DecidableEq, Repr

/-- A single-select option: stable id plus display name. -/

structure FieldOption where
  id : String
  name : String
deriving DecidableEq, Repr

/-- A project field schema entry (`ProjectV2FieldCommon` plus options for
single-select fields). -/

structure Field where
  id : String
  name : String
  dataType : DataType
  options : List FieldOption
deriving DecidableEq, Repr

/-- The tagged union sent in `updateProjectV2ItemFieldValue`. -/

inductive FieldValue where
  | singleSelectOptionId (id : String)
  | number (q : ℚ)
  | date (s : String)
  | text (s : String)
deriving DecidableEq, Repr

/-- `setFieldValue` from the populate script: type-dispatches the value per
field data type and either returns the mutation payload (`some`) or returns
without issuing any mutation (`none`).  Mirrors the source switch:
single-select requires a case-insensitive exact option-name match; number
uses `Number(value)` and rejects NaN; date and text only trim and reject
the blank string. -/

def setFieldValue (field : Option Field) (value : JVal) : Option FieldValue :=
  match field with
  | none => none
  | some f =>
    match f.dataType with
    | .SINGLE_SELECT =>
      match f.options.find? (fun o => jsToLower o.name == jsToLower (jsTrim (jstring value))) with
      | none => none
      | some o => some (.singleSelectOptionId o.id)
    | .NUMBER =>
      match jsNumber value with
      | none => none
      | some n => some (.number n)
    | .DATE =>
      let s := jsTrim (jstring value)
      if s = "" then none else some (.date s)
    | .TEXT =>
      let s := jsTrim (jstring value)
      if s = "" then none else some (.text s)
    | .OTHER => none

/-- A DATE-typed board field, used to exercise the date branch of
`setFieldValue`. -/

def plannedStartField : Field :=
  ⟨"f-ps", "Planned Start", .DATE, []⟩

/-! ## Front-matter records and the sync-from header merge -/

/-- Recognized front-matter header keys of a local task record; `none` means
the key is absent from the YAML header (JS `undefined`). -/

structure Fm where
  issue : Option Nat := none
  title : Option String := none
  description : Option String := none
  status : Option JVal := none
  priority : Option JVal := none
  size : Option JVal := none
  estimate : Option JVal := none
  devHours : Option JVal := none
  qaHours : Option JVal := none
  plannedStart : Option JVal := none
  plannedEnd : Option JVal := none
  actualStart : Option JVal := none
  actualEnd : Option JVal := none
  assignees : Option (List String) := none
  labels : Option (List String) := none
  milestone : Option String := none
  comments : Option JVal := none
  relationships : Option (List String) := none
deriving DecidableEq, Repr

/-- The configured status field display name (`STATUS_FIELD_NAME`,
defaulting to "Status"). -/

def statusFieldName : String := "Status"

/-- Lookup in a string-keyed association list (a JS object). -/

def lookupA {α : Type} (l : List (String × α)) (k : String) : Option α :=
  (l.find? (fun e => e.1 == k)).map (fun e => e.2)

/-- Assignment `obj[k] = v` on a string-keyed association list. -/

def setA {α : Type} (l : List (String × α)) (k : String) (v : α) :
    List (String × α) :=
  (k, v) :: l.filter (fun e => e.1 != k)

/-- Lookup in the string-keyed object built by `parseFieldValues`. -/

def lookupAssocJ (l : List (String × JVal)) (k : String) : Option JVal :=
  lookupA l k

/-- JS object-spread / conditional-assignment override for one key: the
new value wins when present, otherwise the old value is kept.  A guarded
assignment `if (x != null) o.k = x` on an object key is exactly
`ov x o.k`. -/

def ov {α : Type} (upd old : Option α) : Option α :=
  match upd with
  | some v => some v
  | none => old

/-- The `fmUpdates` object computed by the sync-from main loop (lines
180–197): guarded key assignments on an initially empty object, each
conditional assignment rendered with `ov`.  The description guard mirrors
the source literally: it tests `issue.body && !fmUpdates.description` —
the description key of the updates object built so far (always unset at
that point), not of the local record. -/

def buildFmUpdates (issueTitle issueBody : String) (issueNum : Nat)
    (fields : List (String × JVal)) (assignees labels : List String)
    (milestone : Option String) (commentsYaml : Option String) : Fm :=
  let fm : Fm := { title := some issueTitle }
  { fm with
    description := if issueBody ≠ "" ∧ fm.description = none then some issueBody
      else fm.description
    issue := some issueNum
    status := ov (lookupAssocJ fields statusFieldName) fm.status
    priority := ov (lookupAssocJ fields "Priority") fm.priority
    size := ov (lookupAssocJ fields "Size") fm.size
    estimate := ov (lookupAssocJ fields "Estimate") fm.estimate
    devHours := ov (lookupAssocJ fields "Dev Hours") fm.devHours
    qaHours := ov (lookupAssocJ fields "QA Hours") fm.qaHours
    plannedStart := ov (lookupAssocJ fields "Planned Start") fm.plannedStart
    plannedEnd := ov (lookupAssocJ fields "Planned End") fm.plannedEnd
    actualStart := ov (lookupAssocJ fields "Actual Start") fm.actualStart
    actualEnd := ov (lookupAssocJ fields "Actual End") fm.actualEnd
    assignees := some assignees
    labels := some labels
    milestone := ov milestone fm.milestone
    comments := ov (commentsYaml.map (fun cy => JVal.str (cy ++ "\n"))) fm.comments }

/-- The sync-from merge step `{ ...(local.parsed.data || {}), ...fmUpdates }`:
update keys win on collision, keys absent from the update are preserved. -/

def mergeFm (old upd : Fm) : Fm where
  issue := ov upd.issue old.issue
  title := ov upd.title old.title
  description := ov upd.description old.description
  status := ov upd.status old.status
  priority := ov upd.priority old.priority
  size := ov upd.size old.size
  estimate := ov upd.estimate old.estimate
  devHours := ov upd.devHours old.devHours
  qaHours := ov upd.qaHours old.qaHours
  plannedStart := ov upd.plannedStart old.plannedStart
  plannedEnd := ov upd.plannedEnd old.plannedEnd
  actualStart := ov upd.actualStart old.actualStart
  actualEnd := ov upd.actualEnd old.actualEnd
  assignees := ov upd.assignees old.assignees
  labels := ov upd.labels old.labels
  milestone := ov upd.milestone old.milestone
  comments := ov upd.comments old.comments
  relationships := ov upd.relationships old.relationships

/-! ## Categorized comment upsert (issue store client) -/

/-- The fixed marker prefix of a category comment. -/

def marker (header : String) : String := "**" ++ header ++ "**"

/-- Replace the first list element satisfying `p` by `nb` (the effect of
`updateComment` on the comment found by `find`). -/

def replaceFirst (p : String → Bool) (nb : String) : List String → List String
  | [] => []
  | c :: t => if p c then nb :: t else c :: replaceFirst p nb t

/-- `upsertComment` from the populate script: a no-op when the body is
blank; otherwise the first comment starting with the category marker is
replaced by the freshly marked body, and if none exists a new marked
comment is appended. -/

def upsertComment (header body : String) (comments : List String) : List String :=
  if mdToBoolS body = false then comments
  else
    match comments.find? (fun c => jsStartsWith c (marker header)) with
    | some _ =>
      replaceFirst (fun c => jsStartsWith c (marker header))
        (marker header ++ "\n\n" ++ jsTrim body) comments
    | none => comments ++ [marker header ++ "\n\n" ++ jsTrim body]

/-- Number of live comments carrying the category marker. -/

def countMarker (header : String) (cs : List String) : Nat :=
  cs.countP (fun c => jsStartsWith c (marker header))

/-! ## Issue store and findOrCreateIssue (populate direction) -/

/-- A tracked issue as seen through the issue-store client. -/

structure StoreIssue where
  number : Nat
  title : String
  isPullRequest : Bool
deriving DecidableEq, Repr

/-- The remote issue store: the repository's issues and the number the
store will assign to the next created issue. -/

structure Store where
  issues : List StoreIssue
  nextNumber : Nat
deriving DecidableEq, Repr

/-- `octokit.rest.issues.get`: resolve an issue by number (`none` is the
404 the source catches). -/

def getIssue (st : Store) (n : Nat) : Option StoreIssue :=
  st.issues.find? (fun i => i.number == n)

/-- The exact-title, non-pull-request match among title search results
(`search.data.items.find(i => i.title === fmTitle && !i.pull_request)`). -/

def searchHit (st : Store) (t : String) : Option StoreIssue :=
  st.issues.find? (fun i => i.title == t && !i.isPullRequest)

/-- The slice of a local task file that issue resolution reads and writes:
the stored identifier, the title and the body pushed on creation. -/

structure PopRecord where
  issue : Option Nat := none
  title : String
  description : String := ""
deriving DecidableEq, Repr

/-- The tail of `findOrCreateIssue` after the caught identifier
verification: exact-title non-pull-request search to reuse, otherwise
create a new issue and immediately write the new number back into the
record's front matter. -/

def focViaSearch (st : Store) (r : PopRecord) : Store × PopRecord × Nat × Bool :=
  match searchHit st r.title with
  | some hit => (st, r, hit.number, false)
  | none =>
    (⟨st.issues ++ [⟨st.nextNumber, r.title, false⟩], st.nextNumber + 1⟩,
     { r with issue := some st.nextNumber }, st.nextNumber, true)

/-- `findOrCreateIssue` from the populate script, at issue-store level.
A truthy stored identifier is verified first via `issues.get`; a failed
verification falls through (the source catches the 404) to `focViaSearch`.
Returns (store after, record as left on disk, issue number, created flag). -/

def findOrCreateIssue (st : Store) (r : PopRecord) :
    Store × PopRecord × Nat × Bool :=
  match r.issue with
  | some n =>
    if n ≠ 0 then
      match getIssue st n with
      | some i => (st, r, i.number, false)
      | none => focViaSearch st r
    else focViaSearch st r
  | none => focViaSearch st r

/-- One populate pass restricted to issue resolution: fold
`findOrCreateIssue` over the records in listing order, threading the store;
returns the final store, the records as left on disk (write-back applied on
creation), and how many issues were created. -/

def popRun : Store → List PopRecord → Store × List PopRecord × Nat
  | st, [] => (st, [], 0)
  | st, r :: rs =>
    let step := findOrCreateIssue st r
    let rest := popRun step.1 rs
    (rest.1, step.2.1 :: rest.2.1, (if step.2.2.2 then 1 else 0) + rest.2.2)

/-- A record that resolves without creating: either its stored identifier
is truthy and fetches, or an exact-title non-PR search match exists. -/

def resolvable (st : Store) (r : PopRecord) : Prop :=
  (∃ n, r.issue = some n ∧ n ≠ 0 ∧ (getIssue st n).isSome)
    ∨ (searchHit st r.title).isSome

/-- `findOrCreateIssue` from the simpler populate-kanban script: exact-title
non-pull-request search in the owning repository, creating only when no
match is found; no identifier is consulted and no file is written. -/

def findOrCreateIssueByTitle (st : Store) (title body : String) :
    Store × Nat × Bool :=
  match searchHit st title with
  | some existing => (st, existing.number, false)
  | none =>
    (⟨st.issues ++ [⟨st.nextNumber, title, false⟩], st.nextNumber + 1⟩,
     st.nextNumber, true)

/-- A stored identifier that is supplied, truthy and still resolves. -/

def idResolves (st : Store) (r : PopRecord) : Prop :=
  ∃ n i, r.issue = some n ∧ n ≠ 0 ∧ getIssue st n = some i

/-! ## Board field push and read-back (round trip) -/

/-- The field schema fetched once per run. -/

abbrev Schema := List Field

/-- `fieldMap.get(name)` on the fetched schema. -/

def fieldMapGet (schema : Schema) (name : String) : Option Field :=
  schema.find? (fun f => f.name == name)

/-- The board's stored field values for one item, keyed by field name
(one value per field; `updateProjectV2ItemFieldValue` overwrites). -/

abbrev Board := List (String × FieldValue)

/-- The `desired` map of the populate main loop (lines 243–254), in
insertion order. -/

def desiredEntries (r : Fm) : List (String × Option JVal) :=
  [(statusFieldName, r.status), ("Priority", r.priority), ("Size", r.size),
   ("Estimate", r.estimate), ("Dev Hours", r.devHours), ("QA Hours", r.qaHours),
   ("Planned Start", r.plannedStart), ("Planned End", r.plannedEnd),
   ("Actual Start", r.actualStart), ("Actual End", r.actualEnd)]

/-- One iteration of the populate field loop (lines 256–261): look the
field up in the schema, skip fields absent from the schema or values that
are absent or falsy, and apply `setFieldValue`; a `none` payload means no
mutation was issued, otherwise the board stores the payload under the
field. -/

def pushField (schema : Schema) (b : Board) (name : String)
    (val : Option JVal) : Board :=
  match fieldMapGet schema name, val with
  | some f, some v =>
    if mdToBoolJ (some v) then
      match setFieldValue (some f) v with
      | some fv => setA b f.name fv
      | none => b
    else b
  | _, _ => b

/-- The whole populate field loop over the fixed `desired` entries. -/

def pushFields (schema : Schema) (r : Fm) (b : Board) : Board :=
  (desiredEntries r).foldl (fun b e => pushField schema b e.1 e.2) b

/-- One `fieldValues` node of a board item as the sync-from GraphQL query
returns it: one variant per value type; the field name and the value may
each be null. -/

inductive FieldValueNode where
  | singleSelect (fieldName : Option String) (optionName : Option String)
  | number (fieldName : Option String) (value : Option ℚ)
  | date (fieldName : Option String) (value : Option String)
  | text (fieldName : Option String) (value : Option String)
deriving DecidableEq, Repr

/-- The key/value pair one node contributes in `parseFieldValues` (absent
when the field name or the value is null). -/

def nodeEntry : FieldValueNode → Option (String × JVal)
  | .singleSelect (some n) (some s) => some (n, .str s)
  | .number (some n) (some q) => some (n, .num q)
  | .date (some n) (some s) => some (n, .str s)
  | .text (some n) (some s) => some (n, .str s)
  | _ => none

/-- The per-node object update of `parseFieldValues`: null field names and
null values contribute nothing, otherwise the object key is assigned. -/

def parseStep (out : List (String × JVal)) (node : FieldValueNode) :
    List (String × JVal) :=
  match nodeEntry node with
  | some (k, v) => setA out k v
  | none => out

/-- `parseFieldValues` from the sync-from script: fold the item's field
value nodes into a name-keyed object, later nodes overwriting earlier
ones. -/

def parseFieldValues (nodes : List FieldValueNode) : List (String × JVal) :=
  nodes.foldl parseStep []

/-- How the GraphQL item read presents one stored board value: a
single-select value surfaces its option's display name (resolved through
the schema), the other types surface their raw value. -/

def nodeOf (schema : Schema) (k : String) (fv : FieldValue) : FieldValueNode :=
  match fv with
  | .singleSelectOptionId oid =>
    .singleSelect (some k)
      (match fieldMapGet schema k with
       | some f => (f.options.find? (fun o => o.id == oid)).map (fun o => o.name)
       | none => none)
  | .number q => .number (some k) (some q)
  | .date s => .date (some k) (some s)
  | .text s => .text (some k) (some s)

/-- All field value nodes of the board item. -/

def boardToNodes (schema : Schema) (b : Board) : List FieldValueNode :=
  b.map (fun e => nodeOf schema e.1 e.2)

/-- What sync-from reads for field `k` of the item: `parseFieldValues`
applied to the item's nodes, looked up at `k`. -/

def readBack (schema : Schema) (b : Board) (k : String) : Option JVal :=
  lookupAssocJ (parseFieldValues (boardToNodes schema b)) k

/-- The value sync-from would recover from one stored payload for field
`k`: numbers, dates and texts come back as stored, a single-select id comes
back as its option name via the schema. -/

def readOne (schema : Schema) (k : String) : FieldValue → Option JVal
  | .singleSelectOptionId oid =>
    match fieldMapGet schema k with
    | some f => (f.options.find? (fun o => o.id == oid)).map (fun o => JVal.str o.name)
    | none => none
  | .number q => some (.num q)
  | .date s => some (.str s)
  | .text s => some (.str s)

/-! ## Issue comments in the sync-from direction -/

/-- One issue comment as fetched by sync-from. -/

structure CommentData where
  body : String
  created_at : String
  login : Option String
deriving DecidableEq, Repr

/-- `isAutomationComment` from the sync-from script: a comment body starting
with either fixed category marker. -/

def isAutomationComment (body : String) : Bool :=
  jsStartsWith body "**Automated Notes**" || jsStartsWith body "**Relationships**"

/-- One-pass state machine for the regex replace `\r?\n+ → " "`: the flag
records whether a `\n`-run of an active match is being consumed. -/

def collapseNl : Bool → List Char → List Char
  | _, [] => []
  | _, '\r' :: '\n' :: t => ' ' :: collapseNl true t
  | true, '\n' :: t => collapseNl true t
  | false, '\n' :: t => ' ' :: collapseNl true t
  | _, '\r' :: t => '\r' :: collapseNl false t
  | _, c :: t => c :: collapseNl false t

/-- Collapse every run matched by the regex `\r?\n+` to a single space
(the comment-flattening replace of `formatCommentsForYaml`). -/

def collapseNewlines (cs : List Char) : List Char :=
  collapseNl false cs

/-- One line of the user-comment projection:
`- [date] @author: flattened text`. -/

def formatCommentLine (c : CommentData) : String :=
  "- [" ++ String.mk (c.created_at.data.take 10) ++ "] " ++
    (match c.login with
     | some l => if l ≠ "" then "@" ++ l else "@unknown"
     | none => "@unknown") ++
    ": " ++ jsTrim (String.mk (collapseNewlines c.body.data))

/-- `formatCommentsForYaml`: the joined line list, or `undefined` when
there are no comments. -/

def formatCommentsForYaml (comments : List CommentData) : Option String :=
  match comments.map formatCommentLine with
  | [] => none
  | l => some (String.intercalate "\n" l)

/-- Populate's field push for one record into a fresh board item, followed
by sync-from's read of the same item: push the desired fields, read them
back through `parseFieldValues`, fetch and filter the issue comments, build
`fmUpdates` and merge it onto the original record. -/

def roundTrip (schema : Schema) (r : Fm) (issueTitle issueBody : String)
    (issueNum : Nat) (assignees labels : List String)
    (milestone : Option String) (comments : List CommentData) : Fm :=
  let board := pushFields schema r []
  let fields := parseFieldValues (boardToNodes schema board)
  let userComments := comments.filter (fun c => !(isAutomationComment c.body))
  let commentsYaml := formatCommentsForYaml userComments
  mergeFm r (buildFmUpdates issueTitle issueBody issueNum fields assignees
    labels milestone commentsYaml)

/-- The single-select safety condition: every option matching the trimmed
value case-insensitively carries exactly the value as its display name. -/

def optionsExact (f : Field) (s : String) : Prop :=
  ∀ o ∈ f.options, jsToLower o.name = jsToLower (jsTrim s) → o.name = s

/-- Per-data-type conditions under which a pushed value reads back
verbatim. -/

def valueRoundSafe (f : Field) (v : JVal) : Prop :=
  match f.dataType with
  | .SINGLE_SELECT => ∃ s, v = .str s ∧ optionsExact f s
  | .NUMBER => ∃ q, v = .num q
  | .DATE => ∃ s, v = .str s ∧ jsTrim s = s
  | .TEXT => ∃ s, v = .str s ∧ jsTrim s = s
  | .OTHER => True

/-- A desired entry is round-trip safe for the schema. -/

def fieldSafe (schema : Schema) (name : String) (val : Option JVal) : Prop :=
  ∀ v, val = some v → ∀ f, fieldMapGet schema name = some f → valueRoundSafe f v

/-- Well-formed schema: option ids are unique within each field. -/

def schemaWF (schema : Schema) : Prop :=
  ∀ f ∈ schema, (f.options.map (fun o => o.id)).Nodup

/-! ## Round-trip lemmas -/

/-- The value node `n` contributes at key `k`. -/

def entryVal (k : String) (n : FieldValueNode) : Option JVal :=
  match nodeEntry n with
  | some (k', v) => if k' == k then some v else none
  | none => none

/-- The per-node accumulator step of the overwrite semantics at key `k`. -/

def lastStep (k : String) (acc : Option JVal) (node : FieldValueNode) : Option JVal :=
  match nodeEntry node with
  | some (k', v) => if k' == k then some v else acc
  | none => acc

/-- The value of the last node with key `k`, the overwrite winner of
`parseFieldValues`. -/

def lastVal (k : String) (nodes : List FieldValueNode) : Option JVal :=
  nodes.foldl (lastStep k) none

/-- The payload one desired entry stores on the board, if any. -/

def pushOutcome (schema : Schema) (name : String) (val : Option JVal) :
    Option FieldValue :=
  match fieldMapGet schema name, val with
  | some f, some v => if mdToBoolJ (some v) then setFieldValue (some f) v else none
  | _, _ => none

/-- Folding the populate field loop over an arbitrary entry list. -/

def pushFold (schema : Schema) (b : Board)
    (entries : List (String × Option JVal)) : Board :=
  entries.foldl (fun b e => pushField schema b e.1 e.2) b

/-! ## Sync-from run over the local file store -/

/-- A local file path: directory plus basename (`path.join(dir, base)`;
`path.basename` recovers `base`). -/

structure Path where
  dir : String
  base : String
deriving DecidableEq, Repr

/-- The active tasks directory (`TASKS_DIR` default). -/

def TASKS_DIR : String := "tasks"

/-- The archive directory (`TASKS_ARCHIVE_DIR` default,
`path.join(TASKS_DIR, "archive")`). -/

def TASKS_ARCHIVE_DIR : String := "tasks/archive"

/-- A parsed local task file: front-matter header plus free-text content. -/

structure Record where
  fm : Fm
  content : String
deriving DecidableEq, Repr

/-- The local file tree as a path-keyed association list. -/

abbrev FS := List (Path × Record)

def lookupFS (fs : FS) (p : Path) : Option Record :=
  (fs.find? (fun e => e.1 == p)).map (fun e => e.2)

/-- `fs.unlinkSync`. -/

def eraseFS (fs : FS) (p : Path) : FS :=
  fs.filter (fun e => e.1 != p)

/-- `fs.writeFileSync`: create or overwrite. -/

def writeFS (fs : FS) (p : Path) (r : Record) : FS :=
  (p, r) :: eraseFS fs p

/-- `fs.renameSync`: the file moves to the destination path, overwriting
any file already there (POSIX rename). -/

def renameFS (fs : FS) (src dst : Path) : FS :=
  match lookupFS fs src with
  | some r => writeFS (eraseFS fs src) dst r
  | none => fs

/-- JS `String.prototype.endsWith`, modelled on the character list. -/

def jsEndsWith (s suff : String) : Bool :=
  suff.data.isSuffixOf s.data

/-- A slug character after lowercasing: `[a-z0-9]`. -/

def isSlugChar (c : Char) : Bool :=
  decide (('a' ≤ c ∧ c ≤ 'z') ∨ ('0' ≤ c ∧ c ≤ '9'))

/-- One-pass state machine for the regex replace `[^a-z0-9]+ → "-"`: the
flag records whether a non-slug run is being consumed. -/

def slugAux : Bool → List Char → List Char
  | _, [] => []
  | inRun, c :: t =>
    if isSlugChar c then c :: slugAux false t
    else if inRun then slugAux true t
    else '-' :: slugAux true t

/-- Collapse every run of non-slug characters to a single dash
(the regex replace `/[^a-z0-9]+/g → "-"`). -/

def slugCollapse (cs : List Char) : List Char :=
  slugAux false cs

/-- Remove one leading dash if present (half of the
`/(^-|-$)/g → ""` replace). -/

def stripOneDash : List Char → List Char
  | '-' :: t => t
  | cs => cs

/-- `slugify` from the sync-from script: lowercase, collapse non-alphanumeric
runs to dashes, strip one leading and one trailing dash, cap at 80
characters, defaulting to "task" when empty. -/

def slugify (s : String) : String :=
  let collapsed := slugCollapse (jsToLower s).data
  let stripped := (stripOneDash (stripOneDash collapsed).reverse).reverse
  let sliced := stripped.take 80
  if sliced.isEmpty then "task" else String.mk sliced

/-- The filename derived for a newly synthesized record:
`issueNum-slugify(title).md`. -/

def synthBase (n : Nat) (title : String) : String :=
  toString n ++ "-" ++ slugify title ++ ".md"

/-- The linked issue content of a board item (absent for non-issue
items). -/

structure IssueContent where
  number : Nat
  title : String
  body : String
deriving DecidableEq, Repr

/-- One board item as listed by sync-from. -/

structure SyncItem where
  isArchived : Bool
  content : Option IssueContent
  fieldValues : List FieldValueNode
deriving DecidableEq, Repr

/-- The authoritative issue details fetched per item (`issues.get` plus the
full comment listing). -/

structure IssueDetail where
  assignees : List String
  labels : List String
  milestone : Option String
  comments : List CommentData
deriving DecidableEq, Repr

/-- One entry of the in-memory local index (the `local` object):
current file path, parsed record, archived flag. -/

structure LocalInfo where
  file : Path
  parsed : Record
  archivedFlag : Bool
deriving DecidableEq, Repr

/-- Observable events of a sync-from run, in execution order. -/

inductive Ev where
  | procItem (n : Nat)
  | reloc (src dst : Path)
  | write (p : Path)
  | delete (n : Nat) (p : Path)
deriving DecidableEq, Repr

/-- The state threaded through the sync-from main loop. -/

structure SyncState where
  fs : FS
  index : List (Nat × LocalInfo)
  present : List Nat
  archivedSet : List Nat
  trace : List Ev
deriving Repr

/-- `localIndex.get`. -/

def getIdx (idx : List (Nat × LocalInfo)) (n : Nat) : Option LocalInfo :=
  (idx.find? (fun e => e.1 == n)).map (fun e => e.2)

/-- `localIndex.set`: overwrite in place, or append a new entry (JS Map
insertion-order semantics). -/

def setIdx (idx : List (Nat × LocalInfo)) (n : Nat) (i : LocalInfo) :
    List (Nat × LocalInfo) :=
  if (idx.find? (fun e => e.1 == n)).isSome then
    idx.map (fun e => if e.1 == n then (n, i) else e)
  else idx ++ [(n, i)]

/-- Indexing one parsed file: only a truthy numeric issue identifier is
entered into the identifier-keyed index. -/

def indexStep (archivedFlag : Bool) (idx : List (Nat × LocalInfo))
    (e : Path × Record) : List (Nat × LocalInfo) :=
  match e.2.fm.issue with
  | some n => if n ≠ 0 then setIdx idx n ⟨e.1, e.2, archivedFlag⟩ else idx
  | none => idx

/-- `indexDir`: parse every `.md` file of one directory and index those
with a truthy numeric issue identifier. -/

def indexDir (fs : FS) (dirName : String) (archivedFlag : Bool)
    (idx : List (Nat × LocalInfo)) : List (Nat × LocalInfo) :=
  (fs.filter (fun e => e.1.dir == dirName && jsEndsWith e.1.base ".md")).foldl
    (indexStep archivedFlag) idx

/-- The whole in-memory index: active directory first, then the archive. -/

def buildIndex (fs : FS) : List (Nat × LocalInfo) :=
  indexDir fs TASKS_ARCHIVE_DIR true (indexDir fs TASKS_DIR false [])

/-- The desired header fields for one item (sync-from main loop
lines 167–197): issue details, filtered user comments, parsed board
fields, assembled by `buildFmUpdates`. -/

def itemFmUpdates (issue : IssueContent) (d : IssueDetail)
    (fieldValues : List FieldValueNode) : Fm :=
  let userComments := d.comments.filter (fun c => !(isAutomationComment c.body))
  let commentsYaml := formatCommentsForYaml userComments
  let fields := parseFieldValues fieldValues
  buildFmUpdates issue.title issue.body issue.number fields d.assignees
    d.labels d.milestone commentsYaml

/-- The `local` entry used for one item: the indexed record, or a freshly
synthesized empty one at the derived filename in the target directory. -/

def locOf (st : SyncState) (item : SyncItem) (issue : IssueContent) : LocalInfo :=
  match getIdx st.index issue.number with
  | some l => l
  | none =>
    ⟨⟨if item.isArchived then TASKS_ARCHIVE_DIR else TASKS_DIR,
      synthBase issue.number issue.title⟩, ⟨{}, ""⟩, item.isArchived⟩

/-- The relocation target when the record's archived flag disagrees with
the item's archived flag; `none` when no move is needed. -/

def movedOf (item : SyncItem) (loc0 : LocalInfo) : Option Path :=
  if item.isArchived ∧ loc0.archivedFlag = false then
    some (Path.mk TASKS_ARCHIVE_DIR loc0.file.base)
  else if item.isArchived = false ∧ loc0.archivedFlag = true then
    some (Path.mk TASKS_DIR loc0.file.base)
  else none

/-- The `local` entry after the relocation step. -/

def locAfterMove (item : SyncItem) (loc0 : LocalInfo) : LocalInfo :=
  match movedOf item loc0 with
  | some dst => { loc0 with file := dst, archivedFlag := item.isArchived }
  | none => loc0

/-- Process one board item (sync-from main loop lines 159–235): skip
non-issue items; record presence; compute the desired header fields;
synthesize a missing local record in the target directory; relocate a
record whose archived flag disagrees with the item's; merge and write at
the (possibly new) path. -/

def processItem (detail : Nat → IssueDetail) (st : SyncState)
    (item : SyncItem) : SyncState :=
  match item.content with
  | none => st
  | some issue =>
    let n := issue.number
    let fmU := itemFmUpdates issue (detail n) item.fieldValues
    let loc0 := locOf st item issue
    let fs1 :=
      match movedOf item loc0 with
      | some dst => renameFS st.fs loc0.file dst
      | none => st.fs
    let loc1 := locAfterMove item loc0
    let newRec : Record := ⟨mergeFm loc1.parsed.fm fmU, loc1.parsed.content⟩
    { fs := writeFS fs1 loc1.file newRec
      index := setIdx st.index n { loc1 with parsed := newRec }
      present := st.present ++ [n]
      archivedSet := if item.isArchived then st.archivedSet ++ [n]
        else st.archivedSet
      trace := st.trace ++ [.procItem n]
        ++ (match movedOf item loc0 with
            | some dst => [.reloc loc0.file dst]
            | none => [])
        ++ [.write (locAfterMove item loc0).file] }

/-- The deletion loop (lines 237–243): after all items are processed,
delete every indexed record whose identifier is not in the present set. -/

def deletePhase (st : SyncState) : SyncState :=
  let doomed := st.index.filter (fun e => !(st.present.contains e.1))
  { st with
    fs := doomed.foldl (fun fs e => eraseFS fs e.2.file) st.fs
    trace := st.trace ++ doomed.map (fun e => Ev.delete e.1 e.2.file) }

/-- The state at the start of a run: the file tree and its in-memory
index, nothing processed yet. -/

def syncInit (fs : FS) : SyncState :=
  { fs := fs, index := buildIndex fs, present := [], archivedSet := [],
    trace := [] }

/-- A whole sync-from run: build the index from both directories, process
every board item in listing order, then run the deletion loop. -/

def syncRun (fs : FS) (items : List SyncItem) (detail : Nat → IssueDetail) :
    SyncState :=
  deletePhase (items.foldl (processItem detail) (syncInit fs))

/-- The issue numbers of the run's issue-backed items, in listing order. -/

def presentOf (items : List SyncItem) : List Nat :=
  items.filterMap (fun it => it.content.map (fun ic => ic.number))

/-- The keys of an index. -/

def idxKeys (idx : List (Nat × LocalInfo)) : List Nat :=
  idx.map (fun e => e.1)

/-! ## Sync-from run lemmas -/

/-- Basenames a sync-from run may touch: basenames of indexed files and the
derived filenames of the run's issue-backed items. -/

def touchableBases (fs : FS) (items : List SyncItem) : List String :=
  (buildIndex fs).map (fun e => e.2.file.base)
    ++ items.filterMap (fun it =>
        it.content.map (fun ic => synthBase ic.number ic.title))

/-- A path a sync-from run may touch: in one of the two managed directories
with a touchable basename. -/

def protectedPath (fs : FS) (items : List SyncItem) (p : Path) : Prop :=
  (p.dir = TASKS_DIR ∨ p.dir = TASKS_ARCHIVE_DIR)
    ∧ p.base ∈ touchableBases fs items

/-- The frame invariant: every indexed file sits at a touchable path, and
the file at the frame path `p` is unchanged. -/

def framed (fs0 : FS) (items0 : List SyncItem) (p : Path)
    (st : SyncState) : Prop :=
  (∀ e ∈ st.index,
    (e.2.file.dir = TASKS_DIR ∨ e.2.file.dir = TASKS_ARCHIVE_DIR)
      ∧ e.2.file.base ∈ touchableBases fs0 items0)
  ∧ lookupFS st.fs p = lookupFS fs0 p

/-! ## Traced populate pipeline with failure injection -/

/-- The remote API calls the populate script issues, one constructor per
call site kind. -/

inductive ApiCall where
  | orgLookup
  | userLookup
  | getFields
  | issuesGet (n : Nat)
  | searchIssues (t : String)
  | createIssue (t : String)
  | addToProject (n : Nat)
  | listLabelsForRepo
  | createLabel (name : String)
  | listMilestones
  | updateIssue (n : Nat)
  | listComments (n : Nat)
  | updateComment (n : Nat)
  | createComment (n : Nat)
  | setField (name : String)
deriving DecidableEq, Repr

/-- Pipeline events: remote API calls with their outcome, and the local
write-back of a created issue number into the record's file. -/

inductive PEv where
  | api (c : ApiCall) (ok : Bool)
  | fileWrite (n : Nat)
deriving DecidableEq, Repr

/-- A pipeline result: the event trace plus the value, `none` after an
uncaught failure (which the top-level catch reports via `setFailed`). -/

def PRes (α : Type) : Type := List PEv × Option α

def pret {α : Type} (a : α) : PRes α := ([], some a)

def pbind {α β : Type} (x : PRes α) (f : α → PRes β) : PRes β :=
  match x with
  | (tr, none) => (tr, none)
  | (tr, some a) =>
    match f a with
    | (tr2, r) => (tr ++ tr2, r)

/-- A remote call outside any try/catch: a failure aborts the run. -/

def pcall (fails : ApiCall → Bool) (c : ApiCall) : PRes Unit :=
  if fails c then ([.api c false], none) else ([.api c true], some ())

/-- A remote call inside a try/catch: the boolean reports success, a
failure is swallowed and the run continues. -/

def pcallSoft (fails : ApiCall → Bool) (c : ApiCall) : PRes Bool :=
  ([.api c (!(fails c))], some (!(fails c)))

/-- Remote state threaded through the pipeline: the issue store plus
per-issue comment lists and the repository's label names. -/

structure RemoteState where
  store : Store
  comments : List (Nat × List String)
  repoLabels : List String
deriving DecidableEq, Repr

def getComments (rs : RemoteState) (n : Nat) : List String :=
  match rs.comments.find? (fun e => e.1 == n) with
  | some e => e.2
  | none => []

def setComments (rs : RemoteState) (n : Nat) (cs : List String) : RemoteState :=
  { rs with comments := (n, cs) :: rs.comments.filter (fun e => e.1 != n) }

/-- Static per-run remote data: the open milestones and the board's field
schema. -/

structure PopWorld where
  milestones : List String
  schema : Schema
deriving Repr

/-- `path.basename(file, ".md")`. -/

def stripMd (s : String) : String :=
  if jsEndsWith s ".md" then String.mk (s.data.take (s.data.length - 3)) else s

/-- JS `a || b` on strings (empty string is falsy). -/

def jsOrS (a b : String) : String :=
  if a ≠ "" then a else b

/-- The `RELATIONSHIP_HEADER` default. -/

def RELATIONSHIP_HEADER : String := "Relationships"

/-- The `COMMENT_HEADER` default. -/

def COMMENT_HEADER : String := "Automated Notes"

/-- One local task file as the populate script reads it. -/

structure PopFile where
  base : String
  fm : Fm
  content : String
deriving DecidableEq, Repr

/-- The search-then-create tail of the populate script's
`findOrCreateIssue`: an exact-title non-pull-request search hit is reused;
otherwise the issue is created and the new number is immediately written
back into the file (the `fileWrite` event). -/

def focSearchT (fails : ApiCall → Bool) (rs : RemoteState) (fmTitle : String)
    (f : PopFile) : PRes (RemoteState × PopFile × Nat × Bool) :=
  pbind (pcall fails (.searchIssues fmTitle)) (fun _ =>
    match searchHit rs.store fmTitle with
    | some hit => pret (rs, f, hit.number, false)
    | none =>
      pbind (pcall fails (.createIssue fmTitle)) (fun _ =>
        ([PEv.fileWrite rs.store.nextNumber],
         some ({ rs with store := ⟨rs.store.issues
              ++ [⟨rs.store.nextNumber, fmTitle, false⟩],
            rs.store.nextNumber + 1⟩ },
          { f with fm := { f.fm with issue := some rs.store.nextNumber } },
          rs.store.nextNumber, true))))

/-- The traced `findOrCreateIssue` of the populate script: the verification
get is inside a try (its failure or 404 falls through to the
search-then-create tail), the tail's calls are not. -/

def focT (fails : ApiCall → Bool) (rs : RemoteState) (existingIssue : Option Nat)
    (fmTitle bodyText : String) (f : PopFile) :
    PRes (RemoteState × PopFile × Nat × Bool) :=
  match existingIssue with
  | some n =>
    if n ≠ 0 then
      match (if fails (.issuesGet n) then none else getIssue rs.store n) with
      | some i => ([PEv.api (.issuesGet n) true], some (rs, f, i.number, false))
      | none => pbind (([PEv.api (.issuesGet n) false], some ()))
          (fun _ => focSearchT fails rs fmTitle f)
    else focSearchT fails rs fmTitle f
  | none => focSearchT fails rs fmTitle f

/-- The label-creation loop inside the try block of `ensureLabels`: the
first failed creation throws, exits the loop, and is caught. -/

def ensureLabelsLoop (fails : ApiCall → Bool) (names : List String)
    (labels : List String) (rs : RemoteState) : List PEv × RemoteState :=
  match labels with
  | [] => ([], rs)
  | lb :: rest =>
    if (names.map jsToLower).contains (jsToLower lb) then
      ensureLabelsLoop fails names rest rs
    else if fails (.createLabel lb) then ([.api (.createLabel lb) false], rs)
    else
      match ensureLabelsLoop fails names rest
          { rs with repoLabels := rs.repoLabels ++ [lb] } with
      | (tr, rs2) => (.api (.createLabel lb) true :: tr, rs2)

/-- `ensureLabels`: a no-op for an empty label list; otherwise list the
repository labels and create the missing ones — every failure inside is
caught and ignored, the run always continues. -/

def ensureLabels (fails : ApiCall → Bool) (labels : List String)
    (rs : RemoteState) : PRes RemoteState :=
  if labels.isEmpty then pret rs
  else if fails .listLabelsForRepo then ([.api .listLabelsForRepo false], some rs)
  else
    match ensureLabelsLoop fails rs.repoLabels labels rs with
    | (tr, rs2) => (.api .listLabelsForRepo true :: tr, some rs2)

/-- `setIssueBasics`: ensure labels (failures swallowed), resolve the
milestone by listing (a hard call), then update the issue (hard). -/

def setIssueBasics (fails : ApiCall → Bool) (n : Nat)
    (assignees labels : List String) (milestoneTitle : String)
    (rs : RemoteState) : PRes RemoteState :=
  pbind (if labels.isEmpty then pret rs else ensureLabels fails labels rs)
    (fun rs1 =>
      pbind (if milestoneTitle ≠ "" then pcall fails .listMilestones else pret ())
        (fun _ => pbind (pcall fails (.updateIssue n)) (fun _ => pret rs1)))

/-- The traced `upsertComment`: early return on a blank body; otherwise a
hard comment listing followed by a hard update-or-create per the first
marker-prefixed comment; the comment-state change is the pure
`upsertComment`. -/

def upsertCommentT (fails : ApiCall → Bool) (n : Nat) (header bodyText : String)
    (rs : RemoteState) : PRes RemoteState :=
  if mdToBoolS bodyText = false then pret rs
  else
    pbind (pcall fails (.listComments n)) (fun _ =>
      pbind (match (getComments rs n).find?
            (fun c => jsStartsWith c (marker header)) with
        | some _ => pcall fails (.updateComment n)
        | none => pcall fails (.createComment n))
        (fun _ =>
          pret (setComments rs n (upsertComment header bodyText (getComments rs n)))))

/-- The traced board-field loop: per entry, fields absent from the schema
or falsy values are skipped, and `setFieldValue` payloads that resolve to
`none` issue no call; resolved payloads issue a hard mutation. -/

def pushFieldsT (fails : ApiCall → Bool) (schema : Schema) :
    List (String × Option JVal) → PRes Unit
  | [] => pret ()
  | (name, val) :: rest =>
    pbind (match fieldMapGet schema name, val with
      | some f, some v =>
        if mdToBoolJ (some v) then
          match setFieldValue (some f) v with
          | some _ => pcall fails (.setField name)
          | none => pret ()
        else pret ()
      | _, _ => pret ()) (fun _ => pushFieldsT fails schema rest)

/-- One iteration of the populate main loop (lines 201–262): resolve or
create the issue, add it to the board, push issue metadata, upsert the two
category comments, push the board fields.  Returns the remote state, the
file as left on disk and the created flag. -/

def runRecordT (fails : ApiCall → Bool) (w : PopWorld) (rs : RemoteState)
    (f : PopFile) : PRes (RemoteState × PopFile × Bool) :=
  let fmTitle := jsTrim (match f.fm.title with
    | some t => t
    | none => stripMd f.base)
  let bodyText := jsTrim (jsOrS (match f.fm.description with
    | some d => d
    | none => "") f.content)
  pbind (focT fails rs f.fm.issue fmTitle bodyText f) (fun x =>
    pbind (pcall fails (.addToProject x.2.2.1)) (fun _ =>
      pbind (setIssueBasics fails x.2.2.1 (f.fm.assignees.getD [])
          (f.fm.labels.getD []) (jsTrim (f.fm.milestone.getD "")) x.1) (fun rs2 =>
        pbind (match f.fm.relationships with
          | some rels =>
            if rels.isEmpty then pret rs2
            else upsertCommentT fails x.2.2.1 RELATIONSHIP_HEADER
              (String.intercalate "\n" rels) rs2
          | none => pret rs2) (fun rs3 =>
          pbind (if mdToBoolJ f.fm.comments then
              upsertCommentT fails x.2.2.1 COMMENT_HEADER
                (match f.fm.comments with
                  | some v => jstring v
                  | none => "") rs3
            else pret rs3) (fun rs4 =>
            pbind (pushFieldsT fails w.schema (desiredEntries f.fm)) (fun _ =>
              pret (rs4, x.2.1, x.2.2.2)))))))

/-- `getProjectNode`: organization-scoped then user-scoped lookup, each
with its failure caught; only when both fall through does the function
throw (aborting the run). -/

def getProjectNodeT (fails : ApiCall → Bool) : PRes Unit :=
  pbind (pcallSoft fails .orgLookup) (fun ok1 =>
    if ok1 then pret ()
    else pbind (pcallSoft fails .userLookup) (fun ok2 =>
      if ok2 then pret () else ([], none)))

/-- The populate main loop over all files. -/

def runRecords (fails : ApiCall → Bool) (w : PopWorld) :
    RemoteState → List PopFile → PRes RemoteState
  | rs, [] => pret rs
  | rs, f :: rest =>
    pbind (runRecordT fails w rs f) (fun x => runRecords fails w x.1 rest)

/-- A whole populate run: resolve the board, fetch the field schema,
process every file.  (The final git commit block issues no remote API
call.) -/

def runMainT (fails : ApiCall → Bool) (w : PopWorld) (rs : RemoteState)
    (files : List PopFile) : PRes RemoteState :=
  pbind (getProjectNodeT fails) (fun _ =>
    pbind (pcall fails .getFields) (fun _ => runRecords fails w rs files))

/-- Calls whose failure the populate script catches by design: the two
scoped board lookups, the stored-identifier verification get, and the
label listing/creation inside `ensureLabels`. -/

def exemptCall : ApiCall → Bool
  | .orgLookup => true
  | .userLookup => true
  | .issuesGet _ => true
  | .listLabelsForRepo => true
  | .createLabel _ => true
  | _ => false

/-- Every non-exempt API event in the list succeeded. -/

def cleanEvs (l : List PEv) : Prop :=
  ∀ c b, PEv.api c b ∈ l → exemptCall c = false → b = true

/-- A pipeline fragment is good when a successful result implies a clean
trace. -/

def goodR {α : Type} (x : PRes α) : Prop :=
  x.2.isSome = true → cleanEvs x.1

/-- The populate-kanban variant of `findOrCreateIssue` (populate-kanban.js
lines 21–43): an exact-title non-pull-request search, then creation —
with no local write-back of the new number. -/

def kanbanFindOrCreateIssue (fails : ApiCall → Bool) (rs : RemoteState)
    (title : String) : PRes (RemoteState × Nat × Bool) :=
  pbind (pcall fails (.searchIssues title)) (fun _ =>
    match searchHit rs.store title with
    | some hit => pret (rs, hit.number, false)
    | none =>
      pbind (pcall fails (.createIssue title)) (fun _ =>
        pret ({ rs with store := ⟨rs.store.issues
              ++ [⟨rs.store.nextNumber, title, false⟩],
            rs.store.nextNumber + 1⟩ },
          rs.store.nextNumber, true)))

/-- One iteration of the populate-kanban main loop (lines 208–254): derive
the title and the lower-cased status name, skip records with a blank
title, find or create the issue, add it to the board, and set the Status
single-select when the status matches an option case-insensitively.  A
numeric status header aborts the run (`toLowerCase` on a number throws
into the top-level catch).  No step touches the local file. -/

def kanbanRecordT (fails : ApiCall → Bool) (statusField : Field)
    (rs : RemoteState) (f : PopFile) : PRes (RemoteState × Bool) :=
  match f.fm.status with
  | some (JVal.num _) => ([], none)
  | v =>
    if jsTrim (match f.fm.title with
        | some t => t
        | none => stripMd f.base) = "" then pret (rs, false)
    else
      pbind (kanbanFindOrCreateIssue fails rs (jsTrim (match f.fm.title with
          | some t => t
          | none => stripMd f.base))) (fun x =>
        pbind (pcall fails (.addToProject x.2.1)) (fun _ =>
          pbind (if jsToLower (match v with
              | some (JVal.str s) => s
              | _ => "") ≠ "" then
              match statusField.options.find? (fun o =>
                  jsToLower o.name == jsToLower (match v with
                    | some (JVal.str s) => s
                    | _ => "")) with
              | some _ => pcall fails (.setField statusField.name)
              | none => pret ()
            else pret ()) (fun _ => pret (x.1, x.2.2))))

/-- A one-record populate-kanban input with no stored identifier. -/

def c8File : PopFile := { base := "alpha.md", fm := {}, content := "body" }

/-- The board's Status field as populate-kanban fetches it. -/

def c8StatusField : Field :=
  { id := "fid", name := "Status", dataType := DataType.SINGLE_SELECT,
    options := [] }

/-- The failure pattern of the C9 counterexample: every label creation
fails, everything else succeeds. -/

def c9Fails : ApiCall → Bool
  | .createLabel _ => true
  | _ => false

/-- A one-record populate input asking for the label "bug". -/

def c9File : PopFile := { base := "a.md", fm := { labels := some ["bug"] }, content := "b" }

/-! ## Theorems -/

/-- C4 counterexample: the claim says `setFieldValue` performs no remote
mutation for a non-ISO-date string on a DATE field; in fact the date branch
only rejects the blank string, so the non-date string "not-a-date" is sent
as a mutation payload. -/
theorem setFieldValue_date_not_validated :
    setFieldValue (some plannedStartField) (.str "not-a-date") = some (.date "not-a-date")
    ∧ setFieldValue (some plannedStartField) (.str "not-a-date") ≠ none := by
  constructor
  · decide
  · decide

/-- C4 (amended): `setFieldValue` returns without issuing a mutation in
exactly these cases: the field is absent; for SINGLE_SELECT, no option name
matches the trimmed value case-insensitively; for NUMBER, `Number(value)` is
NaN (note an empty string coerces to 0 and is written); for DATE and TEXT,
the trimmed value is the empty string (no ISO-date validation is performed);
and for every other data type, always. -/
theorem setFieldValue_skip_iff (f : Field) (v : JVal) :
    (setFieldValue none v = none)
    ∧ (f.dataType = .SINGLE_SELECT →
        (setFieldValue (some f) v = none ↔
          ∀ o ∈ f.options, jsToLower o.name ≠ jsToLower (jsTrim (jstring v))))
    ∧ (f.dataType = .NUMBER → (setFieldValue (some f) v = none ↔ jsNumber v = none))
    ∧ (f.dataType = .DATE → (setFieldValue (some f) v = none ↔ jsTrim (jstring v) = ""))
    ∧ (f.dataType = .TEXT → (setFieldValue (some f) v = none ↔ jsTrim (jstring v) = ""))
    ∧ (f.dataType = .OTHER → setFieldValue (some f) v = none) := by
  refine ⟨rfl, ?_, ?_, ?_, ?_, ?_⟩ <;> intro h
  · cases hf : f.options.find? (fun o => jsToLower o.name == jsToLower (jsTrim (jstring v))) with
    | none =>
      simp only [setFieldValue, h, hf]
      rw [List.find?_eq_none] at hf
      simp only [beq_iff_eq] at hf
      simpa using hf
    | some o =>
      have ho := List.find?_some hf
      have hmem := List.mem_of_find?_eq_some hf
      simp only [setFieldValue, h, hf]
      simp only [beq_iff_eq] at ho
      constructor
      · intro hc; cases hc
      · intro hall; exact absurd ho (hall o hmem)
  · cases hn : jsNumber v <;> simp [setFieldValue, h, hn]
  · by_cases hs : jsTrim (jstring v) = "" <;> simp [setFieldValue, h, hs]
  · by_cases hs : jsTrim (jstring v) = "" <;> simp [setFieldValue, h, hs]
  · simp [setFieldValue, h]

/-- Witness for the amended C4 theorem: concrete skip cases discharged at
explicit inputs (a NaN string on a NUMBER field, and an unmatched
single-select value). -/
theorem setFieldValue_skip_iff_witness :
    setFieldValue (some ⟨"f-est", "Estimate", .NUMBER, []⟩) (.str "abc") = none
    ∧ setFieldValue (some ⟨"f-st", "Status", .SINGLE_SELECT, [⟨"o1", "Todo"⟩]⟩)
        (.str "Done") = none :=
  ⟨((setFieldValue_skip_iff ⟨"f-est", "Estimate", .NUMBER, []⟩ (.str "abc")).2.2.1
      rfl).mpr (by decide),
   ((setFieldValue_skip_iff ⟨"f-st", "Status", .SINGLE_SELECT, [⟨"o1", "Todo"⟩]⟩
      (.str "Done")).2.1 rfl).mpr (by decide)⟩

/-- C1: the claim states that a non-empty local description is never
replaced by the remote issue body.  The code violates it: the guard on line
182 tests `!fmUpdates.description` — a key of the freshly-built updates
object, which is always unset at that point — instead of the local record's
description, so whenever the remote issue body is non-empty it is copied
into the updates and the spread overwrites the existing local description.
Here a record whose description is the non-empty string "Existing local
description" ends up with description "Remote body" after merge-and-write. -/
theorem description_overwritten_despite_nonempty_local :
    (mergeFm { description := some "Existing local description", issue := some 42 }
        (buildFmUpdates "Some title" "Remote body" 42 [] [] [] none none)).description
      = some "Remote body"
    ∧ (mergeFm { description := some "Existing local description", issue := some 42 }
        (buildFmUpdates "Some title" "Remote body" 42 [] [] [] none none)).description
      ≠ some "Existing local description" := by
  constructor
  · rfl
  · decide

theorem jsStartsWith_append (pre rest : String) :
    jsStartsWith (pre ++ rest) pre = true := by
  simp [jsStartsWith, List.isPrefixOf_iff_prefix]

theorem jsStartsWith_append₂ (pre a b : String) :
    jsStartsWith (pre ++ a ++ b) pre = true := by
  simp [jsStartsWith, List.isPrefixOf_iff_prefix, List.append_assoc]

theorem countP_replaceFirst (p : String → Bool) (nb : String) (l : List String)
    (hnb : p nb = true) : (replaceFirst p nb l).countP p = l.countP p := by
  induction l with
  | nil => rfl
  | cons c t ih =>
    by_cases hc : p c = true
    · simp [replaceFirst, hc, List.countP_cons, hnb]
    · simp only [Bool.not_eq_true] at hc
      simp [replaceFirst, hc, List.countP_cons, ih]

theorem countMarker_upsert (header body : String) (cs : List String) :
    countMarker header (upsertComment header body cs) ≤ max 1 (countMarker header cs) := by
  have hnb : jsStartsWith (marker header ++ "\n\n" ++ jsTrim body) (marker header) = true :=
    jsStartsWith_append₂ _ _ _
  by_cases hb : mdToBoolS body = false
  · simp [upsertComment, hb, le_max_iff]
  · rw [upsertComment, if_neg hb]
    cases hf : cs.find? (fun c => jsStartsWith c (marker header)) with
    | some c =>
      simp only [hf, countMarker]
      rw [countP_replaceFirst (fun c => jsStartsWith c (marker header))
        (marker header ++ "\n\n" ++ jsTrim body) cs hnb]
      exact le_max_right _ _
    | none =>
      have hz : cs.countP (fun c => jsStartsWith c (marker header)) = 0 := by
        rw [List.countP_eq_zero]
        intro a ha
        have := List.find?_eq_none.mp hf a ha
        simpa using this
      simp [hf, countMarker, List.countP_append, hz, List.countP_cons, hnb]

theorem countMarker_fold (header : String) (bodies : List String) (cs : List String)
    (h : countMarker header cs ≤ 1) :
    countMarker header (bodies.foldl (fun l b => upsertComment header b l) cs) ≤ 1 := by
  induction bodies generalizing cs with
  | nil => simpa using h
  | cons b bs ih =>
    rw [List.foldl_cons]
    refine ih (upsertComment header b cs) ?_
    have := countMarker_upsert header b cs
    omega

theorem length_upsert_of_found (header body : String) (cs : List String)
    (hb : mdToBoolS body = true)
    (hf : ∃ c ∈ cs, jsStartsWith c (marker header) = true) :
    (upsertComment header body cs).length = cs.length := by
  obtain ⟨c, hc, hcp⟩ := hf
  have hfind : cs.find? (fun c => jsStartsWith c (marker header)) ≠ none := by
    intro hnone
    exact absurd hcp (by simpa using List.find?_eq_none.mp hnone c hc)
  cases hfound : cs.find? (fun c => jsStartsWith c (marker header)) with
  | none => exact absurd hfound hfind
  | some d =>
    rw [upsertComment, if_neg (by simp [hb]), hfound]
    clear hfound hfind
    induction cs with
    | nil => rfl
    | cons x t ih2 =>
      by_cases hx : jsStartsWith x (marker header) = true
      · simp [replaceFirst, hx]
      · simp only [Bool.not_eq_true] at hx
        rcases List.mem_cons.mp hc with rfl | hct
        · exact absurd hcp (by simp [hx])
        · simp [replaceFirst, hx, ih2 hct]

theorem focViaSearch_grow (st : Store) (r : PopRecord) :
    ∃ ext, (focViaSearch st r).1.issues = st.issues ++ ext := by
  unfold focViaSearch
  cases hs : searchHit st r.title with
  | some hit => exact ⟨[], by simp⟩
  | none => exact ⟨[⟨st.nextNumber, r.title, false⟩], rfl⟩

theorem findOrCreateIssue_grow (st : Store) (r : PopRecord) :
    ∃ ext, (findOrCreateIssue st r).1.issues = st.issues ++ ext := by
  unfold findOrCreateIssue
  cases hr : r.issue with
  | none => exact focViaSearch_grow st r
  | some n =>
    by_cases hn : n ≠ 0
    · simp only [if_pos hn]
      cases hg : getIssue st n with
      | some i => exact ⟨[], by simp⟩
      | none => exact focViaSearch_grow st r
    · simp only [if_neg hn]
      exact focViaSearch_grow st r

theorem resolvable_mono (st st' : Store) (r : PopRecord)
    (hext : ∃ ext, st'.issues = st.issues ++ ext) :
    resolvable st r → resolvable st' r := by
  obtain ⟨ext, he⟩ := hext
  rintro (⟨n, hn, hnz, hget⟩ | hs)
  · obtain ⟨i, hi⟩ := Option.isSome_iff_exists.mp hget
    refine Or.inl ⟨n, hn, hnz, ?_⟩
    simp only [getIssue] at hi ⊢
    rw [he, List.find?_append, hi]
    rfl
  · obtain ⟨hit, hh⟩ := Option.isSome_iff_exists.mp hs
    refine Or.inr ?_
    simp only [searchHit] at hh ⊢
    rw [he, List.find?_append, hh]
    rfl

theorem focViaSearch_resolvable (st : Store) (r : PopRecord) :
    resolvable (focViaSearch st r).1 (focViaSearch st r).2.1 := by
  unfold focViaSearch
  cases hs : searchHit st r.title with
  | some hit => exact Or.inr (by simp [hs])
  | none =>
    refine Or.inr ?_
    simp only [searchHit] at hs ⊢
    rw [List.find?_append, hs]
    simp

theorem findOrCreateIssue_resolvable (st : Store) (r : PopRecord) :
    resolvable (findOrCreateIssue st r).1 (findOrCreateIssue st r).2.1 := by
  unfold findOrCreateIssue
  cases hr : r.issue with
  | none => exact focViaSearch_resolvable st r
  | some n =>
    by_cases hn : n ≠ 0
    · simp only [if_pos hn]
      cases hg : getIssue st n with
      | some i => exact Or.inl ⟨n, hr, hn, by simp [hg]⟩
      | none => exact focViaSearch_resolvable st r
    · simp only [if_neg hn]
      exact focViaSearch_resolvable st r

theorem focViaSearch_noop (st : Store) (r : PopRecord)
    (hs : (searchHit st r.title).isSome) :
    ∃ n, focViaSearch st r = (st, r, n, false) := by
  obtain ⟨hit, hh⟩ := Option.isSome_iff_exists.mp hs
  exact ⟨hit.number, by simp [focViaSearch, hh]⟩

theorem findOrCreateIssue_noop (st : Store) (r : PopRecord) (h : resolvable st r) :
    ∃ n, findOrCreateIssue st r = (st, r, n, false) := by
  rcases h with ⟨n, hn, hnz, hget⟩ | hs
  · obtain ⟨i, hi⟩ := Option.isSome_iff_exists.mp hget
    exact ⟨i.number, by simp [findOrCreateIssue, hn, hnz, hi]⟩
  · unfold findOrCreateIssue
    cases hr : r.issue with
    | none => exact focViaSearch_noop st r hs
    | some m =>
      by_cases hm : m ≠ 0
      · simp only [if_pos hm]
        cases hg : getIssue st m with
        | some i => exact ⟨i.number, rfl⟩
        | none => exact focViaSearch_noop st r hs
      · simp only [if_neg hm]
        exact focViaSearch_noop st r hs

theorem popRun_grow (st : Store) (rs : List PopRecord) :
    ∃ ext, (popRun st rs).1.issues = st.issues ++ ext := by
  induction rs generalizing st with
  | nil => exact ⟨[], by simp [popRun]⟩
  | cons r rs ih =>
    obtain ⟨e1, h1⟩ := findOrCreateIssue_grow st r
    obtain ⟨e2, h2⟩ := ih (findOrCreateIssue st r).1
    refine ⟨e1 ++ e2, ?_⟩
    simp only [popRun]
    rw [h2, h1, List.append_assoc]

theorem popRun_resolvable (st : Store) (rs : List PopRecord) :
    ∀ r' ∈ (popRun st rs).2.1, resolvable (popRun st rs).1 r' := by
  induction rs generalizing st with
  | nil => intro r' hr'; simp [popRun] at hr'
  | cons r rs ih =>
    intro r' hr'
    simp only [popRun, List.mem_cons] at hr' ⊢
    rcases hr' with rfl | hr'
    · exact resolvable_mono _ _ _ (popRun_grow _ rs)
        (findOrCreateIssue_resolvable st r)
    · exact ih (findOrCreateIssue st r).1 r' hr'

theorem popRun_noop (st : Store) (rs : List PopRecord)
    (h : ∀ r ∈ rs, resolvable st r) :
    popRun st rs = (st, rs, 0) := by
  induction rs with
  | nil => rfl
  | cons r rs ih =>
    obtain ⟨n, hfoc⟩ := findOrCreateIssue_noop st r (h r (List.mem_cons_self r rs))
    simp only [popRun, hfoc]
    rw [ih (fun r' hr' => h r' (List.mem_cons_of_mem r hr'))]
    rfl

/-- C2: running the populate direction twice in succession over the same
unchanged local records creates no issue on the second run (the first run
leaves every record either carrying a resolving identifier or matched by
exact title, so `findOrCreateIssue` reuses instead of creating); and, for a
category marker, `upsertComment` keeps the number of marker-prefixed live
comments at most one across any sequence of reconciliation runs, replacing
the first marker-prefixed comment instead of appending when one exists. -/
theorem populate_idempotent_single_category_comment
    (st : Store) (rs : List PopRecord)
    (header : String) (bodies : List String) (cs : List String)
    (header2 body2 : String) (cs2 : List String) :
    ((popRun (popRun st rs).1 (popRun st rs).2.1).2.2 = 0)
    ∧ (countMarker header cs ≤ 1 →
        countMarker header (bodies.foldl (fun l b => upsertComment header b l) cs) ≤ 1)
    ∧ (mdToBoolS body2 = true →
        (∃ c ∈ cs2, jsStartsWith c (marker header2) = true) →
        (upsertComment header2 body2 cs2).length = cs2.length) := by
  refine ⟨?_, countMarker_fold header bodies cs, length_upsert_of_found header2 body2 cs2⟩
  rw [popRun_noop (popRun st rs).1 (popRun st rs).2.1 (popRun_resolvable st rs)]

/-- Witness for C2 at concrete inputs: a store with one record lacking an
identifier; the second pass creates nothing, marker counting starts from a
single marked comment, and a marked comment is replaced, not appended. -/
theorem populate_idempotent_single_category_comment_witness :
    ((popRun (popRun ⟨[], 1⟩ [{ issue := none, title := "Fix login" }]).1
        (popRun ⟨[], 1⟩ [{ issue := none, title := "Fix login" }]).2.1).2.2 = 0)
    ∧ countMarker "Automated Notes"
        (["note a", "note b"].foldl
          (fun l b => upsertComment "Automated Notes" b l)
          ["**Automated Notes**\n\nold", "user comment"]) ≤ 1
    ∧ (upsertComment "Automated Notes" "fresh"
        ["**Automated Notes**\n\nold", "user comment"]).length
      = (["**Automated Notes**\n\nold", "user comment"] : List String).length := by
  refine ⟨(populate_idempotent_single_category_comment ⟨[], 1⟩
      [{ issue := none, title := "Fix login" }] "" [] [] "" "" []).1,
    (populate_idempotent_single_category_comment ⟨[], 1⟩ []
      "Automated Notes" ["note a", "note b"]
      ["**Automated Notes**\n\nold", "user comment"] "" "" []).2.1 (by decide),
    (populate_idempotent_single_category_comment ⟨[], 1⟩ [] "" [] []
      "Automated Notes" "fresh"
      ["**Automated Notes**\n\nold", "user comment"]).2.2 (by decide) (by decide)⟩

/-- C7: `findOrCreateIssue` resolves a supplied truthy stored identifier
first when it still fetches; otherwise it reuses an exact-title
non-pull-request search match; it creates exactly when neither path yields
a match.  The simpler populate-kanban variant is the identifier-free
special case: it reuses an exact-title non-PR match and creates exactly
when the search misses. -/
theorem findOrCreateIssue_precedence (st : Store) (r : PopRecord)
    (t b : String) :
    (∀ n, r.issue = some n → n ≠ 0 → ∀ i, getIssue st n = some i →
        findOrCreateIssue st r = (st, r, i.number, false))
    ∧ (¬ idResolves st r → ∀ hit, searchHit st r.title = some hit →
        findOrCreateIssue st r = (st, r, hit.number, false))
    ∧ ((findOrCreateIssue st r).2.2.2 = true ↔
        ¬ idResolves st r ∧ searchHit st r.title = none)
    ∧ (∀ hit, searchHit st t = some hit →
        findOrCreateIssueByTitle st t b = (st, hit.number, false))
    ∧ ((findOrCreateIssueByTitle st t b).2.2 = true ↔ searchHit st t = none) := by
  refine ⟨?_, ?_, ?_, ?_, ?_⟩
  · intro n hn hnz i hi
    simp [findOrCreateIssue, hn, hnz, hi]
  · intro hnid hit hhit
    unfold findOrCreateIssue
    cases hr : r.issue with
    | none => simp [focViaSearch, hhit]
    | some m =>
      by_cases hm : m ≠ 0
      · simp only [if_pos hm]
        cases hg : getIssue st m with
        | some i => exact absurd ⟨m, i, hr, hm, hg⟩ hnid
        | none => simp [focViaSearch, hhit]
      · simp only [if_neg hm]
        simp [focViaSearch, hhit]
  · unfold findOrCreateIssue
    cases hr : r.issue with
    | none =>
      unfold focViaSearch
      cases hs : searchHit st r.title with
      | some hit => simp [hs, idResolves, hr]
      | none => simp [hs, idResolves, hr]
    | some m =>
      by_cases hm : m ≠ 0
      · simp only [if_pos hm]
        cases hg : getIssue st m with
        | some i =>
          simp only [idResolves]
          constructor
          · intro hfalse; cases hfalse
          · rintro ⟨hnid, -⟩
            exact absurd ⟨m, i, hr, hm, hg⟩ hnid
        | none =>
          unfold focViaSearch
          cases hs : searchHit st r.title with
          | some hit =>
            simp only [hs, idResolves]
            constructor
            · intro hfalse; cases hfalse
            · rintro ⟨-, hnone⟩; cases hnone
          | none =>
            simp only [hs, idResolves]
            constructor
            · intro _
              refine ⟨?_, trivial⟩
              rintro ⟨n', i', hn', hnz', hg'⟩
              rw [hr] at hn'
              cases hn'
              exact absurd hg' (by simp [hg])
            · intro _; trivial
      · simp only [if_neg hm]
        push_neg at hm
        unfold focViaSearch
        cases hs : searchHit st r.title with
        | some hit =>
          simp only [hs, idResolves]
          constructor
          · intro hfalse; cases hfalse
          · rintro ⟨-, hnone⟩; cases hnone
        | none =>
          simp only [hs, idResolves]
          constructor
          · intro _
            refine ⟨?_, trivial⟩
            rintro ⟨n', i', hn', hnz', hg'⟩
            rw [hr] at hn'
            cases hn'
            exact hnz' hm
          · intro _; trivial
  · intro hit hhit
    simp [findOrCreateIssueByTitle, hhit]
  · unfold findOrCreateIssueByTitle
    cases hs : searchHit st t with
    | some hit => simp [hs]
    | none => simp [hs]

/-- Witness for C7 at concrete inputs: a stored identifier that resolves
takes precedence over a title match, and the title-search variant reuses
the exact-title non-PR issue. -/
theorem findOrCreateIssue_precedence_witness :
    findOrCreateIssue ⟨[⟨7, "Fix login", false⟩], 9⟩
        { issue := some 7, title := "Fix login" }
      = (⟨[⟨7, "Fix login", false⟩], 9⟩,
         { issue := some 7, title := "Fix login" }, 7, false)
    ∧ findOrCreateIssueByTitle ⟨[⟨7, "Fix login", false⟩], 9⟩ "Fix login" ""
      = (⟨[⟨7, "Fix login", false⟩], 9⟩, 7, false) :=
  ⟨(findOrCreateIssue_precedence ⟨[⟨7, "Fix login", false⟩], 9⟩
      { issue := some 7, title := "Fix login" } "" "").1 7 rfl (by decide)
      ⟨7, "Fix login", false⟩ (by decide),
   (findOrCreateIssue_precedence ⟨[⟨7, "Fix login", false⟩], 9⟩
      { issue := none, title := "x" } "Fix login" "").2.2.2.1
      ⟨7, "Fix login", false⟩ (by decide)⟩

theorem ov_none_right {α : Type} (x : Option α) : ov x none = x := by
  cases x <;> rfl

theorem lookupA_setA_same {α : Type} (l : List (String × α)) (k : String) (v : α) :
    lookupA (setA l k v) k = some v := by
  simp [lookupA, setA]

theorem find?_key_filter {α : Type} (l : List (String × α)) (k k' : String)
    (h : k' ≠ k) :
    (l.filter (fun e => e.1 != k)).find? (fun e => e.1 == k')
      = l.find? (fun e => e.1 == k') := by
  induction l with
  | nil => rfl
  | cons e t ih =>
    by_cases he : e.1 = k'
    · have h1 : (e.1 != k) = true := by simp [he, h]
      have h2 : (e.1 == k') = true := by simp [he]
      simp [List.filter_cons, h1, List.find?_cons, h2]
    · have h2 : (e.1 == k') = false := by simp [he]
      have h3 : (k == k') = false := by
        simp only [beq_eq_false_iff_ne, ne_eq]
        exact fun hh => h hh.symm
      by_cases h1 : e.1 = k
      · simp [List.filter_cons, h1, List.find?_cons, h2, h3, ih]
      · simp [List.filter_cons, h1, List.find?_cons, h2, ih]

theorem lookupA_setA_ne {α : Type} (l : List (String × α)) (k k' : String) (v : α)
    (h : k' ≠ k) :
    lookupA (setA l k v) k' = lookupA l k' := by
  have hkk : ((k, v).1 == k') = false := by
    simp only [beq_eq_false_iff_ne, ne_eq]
    exact fun hh => h hh.symm
  simp [lookupA, setA, List.find?_cons, hkk, find?_key_filter l k k' h]

theorem lookupA_eq_none_of_not_mem {α : Type} (l : List (String × α)) (k : String)
    (h : k ∉ l.map (fun e => e.1)) :
    lookupA l k = none := by
  induction l with
  | nil => rfl
  | cons e t ih =>
    simp only [List.map_cons, List.mem_cons, not_or] at h
    have he : (e.1 == k) = false := by
      simp only [beq_eq_false_iff_ne, ne_eq]
      exact fun hh => h.1 hh.symm
    have ht := ih h.2
    simp only [lookupA, List.find?_cons, he] at ht ⊢
    exact ht

theorem setA_keys_nodup {α : Type} (l : List (String × α)) (k : String) (v : α)
    (h : (l.map (fun e => e.1)).Nodup) :
    ((setA l k v).map (fun e => e.1)).Nodup := by
  simp only [setA, List.map_cons, List.nodup_cons]
  refine ⟨?_, h.sublist (List.Sublist.map (fun e => e.1) (List.filter_sublist l))⟩
  intro hk
  obtain ⟨e, he, hek⟩ := List.mem_map.mp hk
  have h2 := (List.mem_filter.mp he).2
  rw [hek] at h2
  simp at h2

theorem fieldMapGet_name (schema : Schema) (k : String) (f : Field)
    (h : fieldMapGet schema k = some f) : f.name = k := by
  have := List.find?_some h
  simpa using this

theorem fieldMapGet_mem (schema : Schema) (k : String) (f : Field)
    (h : fieldMapGet schema k = some f) : f ∈ schema :=
  List.mem_of_find?_eq_some h

theorem find?_id_of_nodup (l : List FieldOption) (o : FieldOption)
    (ho : o ∈ l) (hnd : (l.map (fun o => o.id)).Nodup) :
    l.find? (fun p => p.id == o.id) = some o := by
  induction l with
  | nil => cases ho
  | cons a t ih =>
    simp only [List.map_cons, List.nodup_cons] at hnd
    rcases List.mem_cons.mp ho with rfl | hot
    · simp [List.find?_cons]
    · have hne : (a.id == o.id) = false := by
        simp only [beq_eq_false_iff_ne, ne_eq]
        intro he
        exact hnd.1 (he ▸ List.mem_map_of_mem (fun o => o.id) hot)
      simp [List.find?_cons, hne, ih hot hnd.2]

theorem lastStep_or (k : String) (a : Option JVal) (n : FieldValueNode) :
    lastStep k a n = (entryVal k n).or a := by
  cases he : nodeEntry n with
  | none => simp [lastStep, entryVal, he]
  | some p =>
    obtain ⟨k', v⟩ := p
    by_cases hk : (k' == k) = true
    · simp [lastStep, entryVal, he, hk]
    · simp only [Bool.not_eq_true] at hk
      simp [lastStep, entryVal, he, hk]

theorem lastVal_foldl (k : String) (nodes : List FieldValueNode) (a : Option JVal) :
    nodes.foldl (lastStep k) a = (lastVal k nodes).or a := by
  induction nodes generalizing a with
  | nil => simp [lastVal]
  | cons n t ih =>
    rw [List.foldl_cons, ih (lastStep k a n)]
    have hrhs : lastVal k (n :: t) = (lastVal k t).or (entryVal k n) := by
      rw [lastVal, List.foldl_cons, ih (lastStep k none n), lastStep_or,
        Option.or_none]
    rw [hrhs, lastStep_or, Option.or_assoc]

theorem lastVal_cons (k : String) (n : FieldValueNode) (t : List FieldValueNode) :
    lastVal k (n :: t) = (lastVal k t).or (entryVal k n) := by
  rw [lastVal, List.foldl_cons, lastVal_foldl k t (lastStep k none n),
    lastStep_or, Option.or_none]

theorem lookupA_parseStep (out : List (String × JVal)) (n : FieldValueNode)
    (k : String) :
    lookupA (parseStep out n) k = (entryVal k n).or (lookupA out k) := by
  cases he : nodeEntry n with
  | none => simp [parseStep, entryVal, he]
  | some p =>
    obtain ⟨k', v⟩ := p
    by_cases hk : k' = k
    · subst hk
      simp [parseStep, entryVal, he, lookupA_setA_same]
    · have hb : (k' == k) = false := by simpa using hk
      simp [parseStep, entryVal, he, hb, lookupA_setA_ne out k' k v (Ne.symm hk)]

theorem lookupA_parse (nodes : List FieldValueNode) (k : String) :
    lookupA (parseFieldValues nodes) k = lastVal k nodes := by
  suffices h : ∀ out, lookupA (nodes.foldl parseStep out) k
      = (lastVal k nodes).or (lookupA out k) by
    have := h []
    rw [parseFieldValues]
    rw [this]
    simp [lookupA]
  induction nodes with
  | nil => intro out; simp [lastVal]
  | cons n t ih =>
    intro out
    rw [List.foldl_cons, ih (parseStep out n), lookupA_parseStep, lastVal_cons,
      Option.or_assoc]

theorem nodeEntry_nodeOf (schema : Schema) (k : String) (fv : FieldValue) :
    nodeEntry (nodeOf schema k fv) = (readOne schema k fv).map (fun v => (k, v)) := by
  cases fv with
  | singleSelectOptionId oid =>
    simp only [nodeOf, readOne]
    cases hm : fieldMapGet schema k with
    | none => rfl
    | some f =>
      cases hf : f.options.find? (fun o => o.id == oid) with
      | none => simp [nodeEntry, hf]
      | some o => simp [nodeEntry, hf]
  | number q => rfl
  | date s => rfl
  | text s => rfl

theorem lastVal_board (schema : Schema) (b : Board) (k : String)
    (hnd : (b.map (fun e => e.1)).Nodup) :
    lastVal k (boardToNodes schema b) = (lookupA b k).bind (readOne schema k) := by
  induction b with
  | nil => rfl
  | cons e t ih =>
    obtain ⟨k₁, fv⟩ := e
    simp only [List.map_cons, List.nodup_cons] at hnd
    have hent : entryVal k (nodeOf schema k₁ fv)
        = if k₁ == k then readOne schema k₁ fv else none := by
      rw [entryVal, nodeEntry_nodeOf]
      cases hro : readOne schema k₁ fv with
      | none => simp
      | some v => by_cases hk : (k₁ == k) = true <;> simp [hk]
    simp only [boardToNodes, List.map_cons, lastVal_cons]
    by_cases hk : k₁ = k
    · subst hk
      have hnone : lookupA t k₁ = none := lookupA_eq_none_of_not_mem t k₁ hnd.1
      have := ih hnd.2
      simp only [boardToNodes] at this
      rw [this, hnone, hent]
      simp [lookupA, List.find?_cons]
    · have hbeq : (k₁ == k) = false := by simpa using hk
      have := ih hnd.2
      simp only [boardToNodes] at this
      rw [this, hent]
      simp [lookupA, List.find?_cons, hbeq]

theorem readBack_eq (schema : Schema) (b : Board) (k : String)
    (hnd : (b.map (fun e => e.1)).Nodup) :
    readBack schema b k = (lookupA b k).bind (readOne schema k) := by
  rw [readBack, lookupAssocJ, lookupA_parse, lastVal_board schema b k hnd]

theorem pushFields_eq_pushFold (schema : Schema) (r : Fm) (b : Board) :
    pushFields schema r b = pushFold schema b (desiredEntries r) := rfl

theorem pushFold_cons (schema : Schema) (b : Board) (e : String × Option JVal)
    (t : List (String × Option JVal)) :
    pushFold schema b (e :: t) = pushFold schema (pushField schema b e.1 e.2) t := rfl

theorem pushField_keys_nodup (schema : Schema) (b : Board) (name : String)
    (v : Option JVal) (h : (b.map (fun e => e.1)).Nodup) :
    ((pushField schema b name v).map (fun e => e.1)).Nodup := by
  unfold pushField
  cases hf : fieldMapGet schema name with
  | none => cases v <;> exact h
  | some f =>
    cases v with
    | none => exact h
    | some jv =>
      dsimp only
      by_cases hb : mdToBoolJ (some jv) = true
      · rw [if_pos hb]
        cases hs : setFieldValue (some f) jv with
        | none => exact h
        | some fv => exact setA_keys_nodup b f.name fv h
      · rw [if_neg hb]
        exact h

theorem lookupA_pushField_ne (schema : Schema) (b : Board) (name : String)
    (v : Option JVal) (k : String) (h : k ≠ name) :
    lookupA (pushField schema b name v) k = lookupA b k := by
  unfold pushField
  cases hf : fieldMapGet schema name with
  | none => cases v <;> rfl
  | some f =>
    cases v with
    | none => rfl
    | some jv =>
      dsimp only
      by_cases hb : mdToBoolJ (some jv) = true
      · rw [if_pos hb]
        cases hs : setFieldValue (some f) jv with
        | none => rfl
        | some fv =>
          have hn := fieldMapGet_name schema name f hf
          exact lookupA_setA_ne b f.name k fv (by rw [hn]; exact h)
      · rw [if_neg hb]

theorem lookupA_pushField_same (schema : Schema) (b : Board) (name : String)
    (v : Option JVal) :
    lookupA (pushField schema b name v) name
      = (pushOutcome schema name v).or (lookupA b name) := by
  unfold pushField pushOutcome
  cases hf : fieldMapGet schema name with
  | none => cases v <;> simp
  | some f =>
    cases v with
    | none => simp
    | some jv =>
      dsimp only
      by_cases hb : mdToBoolJ (some jv) = true
      · rw [if_pos hb, if_pos hb]
        cases hs : setFieldValue (some f) jv with
        | none => simp
        | some fv =>
          have hn := fieldMapGet_name schema name f hf
          rw [hn, lookupA_setA_same]
          rfl
      · rw [if_neg hb, if_neg hb]
        simp

theorem pushFold_keys_nodup (schema : Schema)
    (entries : List (String × Option JVal)) (b : Board)
    (h : (b.map (fun e => e.1)).Nodup) :
    ((pushFold schema b entries).map (fun e => e.1)).Nodup := by
  induction entries generalizing b with
  | nil => exact h
  | cons e t ih =>
    simp only [pushFold, List.foldl_cons]
    exact ih (pushField schema b e.1 e.2) (pushField_keys_nodup schema b e.1 e.2 h)

theorem lookupA_pushFold_ne (schema : Schema)
    (entries : List (String × Option JVal)) (b : Board) (k : String)
    (h : ∀ e ∈ entries, e.1 ≠ k) :
    lookupA (pushFold schema b entries) k = lookupA b k := by
  induction entries generalizing b with
  | nil => rfl
  | cons e t ih =>
    rw [pushFold_cons,
      ih (pushField schema b e.1 e.2) (fun e' he' => h e' (List.mem_cons_of_mem e he')),
      lookupA_pushField_ne schema b e.1 e.2 k
        (fun hk => h e (List.mem_cons_self e t) hk.symm)]

theorem readOne_setFieldValue (schema : Schema) (k : String) (f : Field)
    (v : JVal) (fv : FieldValue)
    (hwf : schemaWF schema) (hf : fieldMapGet schema k = some f)
    (hvs : valueRoundSafe f v)
    (hs : setFieldValue (some f) v = some fv) :
    readOne schema k fv = some v := by
  cases hd : f.dataType with
  | SINGLE_SELECT =>
    rw [valueRoundSafe, hd] at hvs
    obtain ⟨s, rfl, hexact⟩ := hvs
    simp only [setFieldValue, hd] at hs
    cases hfind : f.options.find?
        (fun o => jsToLower o.name == jsToLower (jsTrim (jstring (.str s)))) with
    | none => rw [hfind] at hs; exact Option.noConfusion hs
    | some o =>
      rw [hfind] at hs
      injection hs with hs2
      subst hs2
      have ho := List.mem_of_find?_eq_some hfind
      have hMatch := List.find?_some hfind
      rw [readOne, hf]
      dsimp only
      rw [find?_id_of_nodup f.options o ho (hwf f (fieldMapGet_mem schema k f hf))]
      have hname : o.name = s := hexact o ho (by simpa [jstring] using hMatch)
      simp [hname]
  | NUMBER =>
    rw [valueRoundSafe, hd] at hvs
    obtain ⟨q, rfl⟩ := hvs
    simp only [setFieldValue, hd, jsNumber] at hs
    injection hs with hs2
    subst hs2
    rfl
  | DATE =>
    rw [valueRoundSafe, hd] at hvs
    obtain ⟨s, rfl, htrim⟩ := hvs
    simp only [setFieldValue, hd, jstring] at hs
    rw [htrim] at hs
    by_cases hse : s = ""
    · rw [if_pos hse] at hs; exact Option.noConfusion hs
    · rw [if_neg hse] at hs
      injection hs with hs2
      subst hs2
      rfl
  | TEXT =>
    rw [valueRoundSafe, hd] at hvs
    obtain ⟨s, rfl, htrim⟩ := hvs
    simp only [setFieldValue, hd, jstring] at hs
    rw [htrim] at hs
    by_cases hse : s = ""
    · rw [if_pos hse] at hs; exact Option.noConfusion hs
    · rw [if_neg hse] at hs
      injection hs with hs2
      subst hs2
      rfl
  | OTHER =>
    simp only [setFieldValue, hd] at hs
    exact Option.noConfusion hs

theorem roundTrip_field (schema : Schema) (entries : List (String × Option JVal))
    (b : Board) (k : String) (v : Option JVal)
    (hwf : schemaWF schema)
    (hmem : (k, v) ∈ entries)
    (hnd : (entries.map (fun e => e.1)).Nodup)
    (hsafe : ∀ e ∈ entries, fieldSafe schema e.1 e.2)
    (hbnd : (b.map (fun e => e.1)).Nodup)
    (hbk : lookupA b k = none) :
    ov (readBack schema (pushFold schema b entries) k) v = v := by
  induction entries generalizing b with
  | nil => cases hmem
  | cons e t ih =>
    obtain ⟨k₁, v₁⟩ := e
    simp only [List.map_cons, List.nodup_cons] at hnd
    rcases List.mem_cons.mp hmem with heq | hmem'
    · obtain ⟨rfl, rfl⟩ := Prod.mk.injEq .. ▸ heq
      have hframe : lookupA (pushFold schema (pushField schema b k v) t) k
          = lookupA (pushField schema b k v) k := by
        apply lookupA_pushFold_ne
        intro e' he' hek
        exact hnd.1 (hek ▸ List.mem_map_of_mem (fun e => e.1) he')
      have hfnd := pushFold_keys_nodup schema t (pushField schema b k v)
        (pushField_keys_nodup schema b k v hbnd)
      rw [pushFold_cons]
      rw [readBack_eq _ _ _ hfnd, hframe, lookupA_pushField_same, hbk,
        Option.or_none]
      cases v with
      | none =>
        cases hf : fieldMapGet schema k <;> simp [pushOutcome, hf, ov]
      | some jv =>
        cases hf : fieldMapGet schema k with
        | none => simp [pushOutcome, hf, ov]
        | some f =>
          by_cases hb : mdToBoolJ (some jv) = true
          · have hvs := hsafe (k, some jv) (List.mem_cons_self _ t) jv rfl f hf
            cases hsv : setFieldValue (some f) jv with
            | none => simp [pushOutcome, hf, hb, hsv, ov]
            | some fv =>
              have hro := readOne_setFieldValue schema k f jv fv hwf hf hvs hsv
              simp [pushOutcome, hf, hb, hsv, hro, ov]
          · simp only [Bool.not_eq_true] at hb
            simp [pushOutcome, hf, hb, ov]
    · have hk1 : k₁ ≠ k := by
        intro hkk
        subst hkk
        exact hnd.1 (List.mem_map_of_mem (fun e => e.1) hmem')
      rw [pushFold_cons]
      exact ih (pushField schema b k₁ v₁) hmem' hnd.2
        (fun e' he' => hsafe e' (List.mem_cons_of_mem _ he'))
        (pushField_keys_nodup schema b k₁ v₁ hbnd)
        (by rw [lookupA_pushField_ne schema b k₁ v₁ k (Ne.symm hk1)]; exact hbk)

theorem desiredEntries_keys (r : Fm) :
    (desiredEntries r).map (fun e => e.1)
      = [statusFieldName, "Priority", "Size", "Estimate", "Dev Hours",
         "QA Hours", "Planned Start", "Planned End", "Actual Start",
         "Actual End"] := rfl

/-- C3 counterexample: the claim says a populate-then-sync-from round trip
writes back exactly the original field values whenever they are accepted by
the board schema.  The local status "todo" IS accepted (it matches the
option "Todo" case-insensitively and a mutation is issued), but the round
trip writes back the canonical option name "Todo", not the original
"todo". -/
theorem roundtrip_canonicalizes_select_case :
    (roundTrip [⟨"f-status", "Status", .SINGLE_SELECT, [⟨"o1", "Todo"⟩]⟩]
        { status := some (.str "todo") } "T" "" 1 [] [] none []).status
      = some (.str "Todo")
    ∧ (roundTrip [⟨"f-status", "Status", .SINGLE_SELECT, [⟨"o1", "Todo"⟩]⟩]
        { status := some (.str "todo") } "T" "" 1 [] [] none []).status
      ≠ ({ status := some (.str "todo") } : Fm).status
    ∧ setFieldValue (some ⟨"f-status", "Status", .SINGLE_SELECT, [⟨"o1", "Todo"⟩]⟩)
        (.str "todo") = some (.singleSelectOptionId "o1") := by
  refine ⟨?_, ?_, ?_⟩ <;> decide

/-- C3 (amended): for a record whose pushed values are round-trip safe —
single-select values are strings that exactly equal (case included) the
display name of any case-insensitively matching option, numeric fields hold
numbers, date and text fields hold trimmed strings — and a schema with
unique option ids per field, populate followed by sync-from writes back
exactly the original status, priority, size, estimate, devHours, qaHours,
plannedStart, plannedEnd, actualStart and actualEnd values (fields that are
absent, falsy, rejected or missing from the schema are preserved
unchanged); and the comment list used for the comments header contains no
comment starting with either automated category marker. -/
theorem populate_syncfrom_roundtrip (schema : Schema) (r : Fm)
    (it ib : String) (n : Nat) (asg ls : List String) (ms : Option String)
    (cs : List CommentData)
    (hwf : schemaWF schema)
    (hsafe : ∀ e ∈ desiredEntries r, fieldSafe schema e.1 e.2) :
    ((roundTrip schema r it ib n asg ls ms cs).status = r.status
    ∧ (roundTrip schema r it ib n asg ls ms cs).priority = r.priority
    ∧ (roundTrip schema r it ib n asg ls ms cs).size = r.size
    ∧ (roundTrip schema r it ib n asg ls ms cs).estimate = r.estimate
    ∧ (roundTrip schema r it ib n asg ls ms cs).devHours = r.devHours
    ∧ (roundTrip schema r it ib n asg ls ms cs).qaHours = r.qaHours
    ∧ (roundTrip schema r it ib n asg ls ms cs).plannedStart = r.plannedStart
    ∧ (roundTrip schema r it ib n asg ls ms cs).plannedEnd = r.plannedEnd
    ∧ (roundTrip schema r it ib n asg ls ms cs).actualStart = r.actualStart
    ∧ (roundTrip schema r it ib n asg ls ms cs).actualEnd = r.actualEnd)
    ∧ ∀ c ∈ cs.filter (fun c => !(isAutomationComment c.body)),
        jsStartsWith c.body "**Automated Notes**" = false
        ∧ jsStartsWith c.body "**Relationships**" = false := by
  have hnd : ((desiredEntries r).map (fun e => e.1)).Nodup := by
    rw [desiredEntries_keys]
    decide
  have hfield : ∀ p ∈ desiredEntries r,
      ov (readBack schema (pushFold schema [] (desiredEntries r)) p.1) p.2 = p.2 := by
    intro p hp
    exact roundTrip_field schema (desiredEntries r) [] p.1 p.2 hwf
      (by simpa using hp) hnd hsafe (by simp) rfl
  constructor
  · refine ⟨?_, ?_, ?_, ?_, ?_, ?_, ?_, ?_, ?_, ?_⟩
    · show ov (ov (readBack schema (pushFold schema [] (desiredEntries r))
        statusFieldName) none) r.status = r.status
      rw [ov_none_right]
      exact hfield (statusFieldName, r.status) (by simp [desiredEntries])
    · show ov (ov (readBack schema (pushFold schema [] (desiredEntries r))
        "Priority") none) r.priority = r.priority
      rw [ov_none_right]
      exact hfield ("Priority", r.priority) (by simp [desiredEntries])
    · show ov (ov (readBack schema (pushFold schema [] (desiredEntries r))
        "Size") none) r.size = r.size
      rw [ov_none_right]
      exact hfield ("Size", r.size) (by simp [desiredEntries])
    · show ov (ov (readBack schema (pushFold schema [] (desiredEntries r))
        "Estimate") none) r.estimate = r.estimate
      rw [ov_none_right]
      exact hfield ("Estimate", r.estimate) (by simp [desiredEntries])
    · show ov (ov (readBack schema (pushFold schema [] (desiredEntries r))
        "Dev Hours") none) r.devHours = r.devHours
      rw [ov_none_right]
      exact hfield ("Dev Hours", r.devHours) (by simp [desiredEntries])
    · show ov (ov (readBack schema (pushFold schema [] (desiredEntries r))
        "QA Hours") none) r.qaHours = r.qaHours
      rw [ov_none_right]
      exact hfield ("QA Hours", r.qaHours) (by simp [desiredEntries])
    · show ov (ov (readBack schema (pushFold schema [] (desiredEntries r))
        "Planned Start") none) r.plannedStart = r.plannedStart
      rw [ov_none_right]
      exact hfield ("Planned Start", r.plannedStart) (by simp [desiredEntries])
    · show ov (ov (readBack schema (pushFold schema [] (desiredEntries r))
        "Planned End") none) r.plannedEnd = r.plannedEnd
      rw [ov_none_right]
      exact hfield ("Planned End", r.plannedEnd) (by simp [desiredEntries])
    · show ov (ov (readBack schema (pushFold schema [] (desiredEntries r))
        "Actual Start") none) r.actualStart = r.actualStart
      rw [ov_none_right]
      exact hfield ("Actual Start", r.actualStart) (by simp [desiredEntries])
    · show ov (ov (readBack schema (pushFold schema [] (desiredEntries r))
        "Actual End") none) r.actualEnd = r.actualEnd
      rw [ov_none_right]
      exact hfield ("Actual End", r.actualEnd) (by simp [desiredEntries])
  · intro c hc
    have h2 := (List.mem_filter.mp hc).2
    rw [Bool.not_eq_true'] at h2
    rw [isAutomationComment, Bool.or_eq_false_iff] at h2
    exact h2

/-- Witness for the amended C3 theorem: a record whose status exactly
matches the "Todo" option round-trips unchanged. -/
theorem populate_syncfrom_roundtrip_witness :
    (roundTrip [⟨"f-status", "Status", .SINGLE_SELECT, [⟨"o1", "Todo"⟩]⟩]
        { status := some (.str "Todo") } "T" "" 1 [] [] none []).status
      = some (.str "Todo") := by
  refine ((populate_syncfrom_roundtrip
    [⟨"f-status", "Status", .SINGLE_SELECT, [⟨"o1", "Todo"⟩]⟩]
    { status := some (.str "Todo") } "T" "" 1 [] [] none [] ?_ ?_).1).1
  · intro f hf
    simp only [List.mem_singleton] at hf
    subst hf
    decide
  · intro e he v hv f hf
    simp only [desiredEntries, List.mem_cons, List.not_mem_nil, or_false] at he
    rcases he with rfl | rfl | rfl | rfl | rfl | rfl | rfl | rfl | rfl | rfl
    · injection hv with hv2
      subst hv2
      have hfe : f = ⟨"f-status", "Status", .SINGLE_SELECT, [⟨"o1", "Todo"⟩]⟩ := by
        have : fieldMapGet [⟨"f-status", "Status", .SINGLE_SELECT, [⟨"o1", "Todo"⟩]⟩]
            statusFieldName
            = some ⟨"f-status", "Status", .SINGLE_SELECT, [⟨"o1", "Todo"⟩]⟩ := by decide
        rw [this] at hf
        injection hf with hf2
        exact hf2.symm
      subst hfe
      exact ⟨"Todo", rfl, fun o ho _ => by
        simp only [List.mem_singleton] at ho
        subst ho
        rfl⟩
    all_goals exact Option.noConfusion hv

theorem find?_pkey_filter (fs : FS) (p q : Path) (h : q ≠ p) :
    ((fs.filter (fun e => e.1 != p)).find? (fun e => e.1 == q))
      = fs.find? (fun e => e.1 == q) := by
  induction fs with
  | nil => rfl
  | cons e t ih =>
    by_cases he : e.1 = q
    · have h1 : (e.1 != p) = true := by simp [he, h]
      have h2 : (e.1 == q) = true := by simp [he]
      simp [List.filter_cons, h1, List.find?_cons, h2]
    · have h2 : (e.1 == q) = false := by simp [he]
      by_cases h1 : e.1 = p
      · have h3 : (p == q) = false := by
          simp only [beq_eq_false_iff_ne, ne_eq]
          exact fun hh => h hh.symm
        simp [List.filter_cons, h1, List.find?_cons, h2, h3, ih]
      · simp [List.filter_cons, h1, List.find?_cons, h2, ih]

theorem lookupFS_writeFS_same (fs : FS) (p : Path) (r : Record) :
    lookupFS (writeFS fs p r) p = some r := by
  simp [lookupFS, writeFS, List.find?_cons]

theorem lookupFS_writeFS_ne (fs : FS) (p q : Path) (r : Record) (h : q ≠ p) :
    lookupFS (writeFS fs p r) q = lookupFS fs q := by
  have hpq : ((p, r).1 == q) = false := by
    simp only [beq_eq_false_iff_ne, ne_eq]
    exact fun hh => h hh.symm
  simp [lookupFS, writeFS, eraseFS, List.find?_cons, hpq, find?_pkey_filter fs p q h]

theorem lookupFS_eraseFS_ne (fs : FS) (p q : Path) (h : q ≠ p) :
    lookupFS (eraseFS fs p) q = lookupFS fs q := by
  simp [lookupFS, eraseFS, find?_pkey_filter fs p q h]

theorem lookupFS_eraseFS_same (fs : FS) (p : Path) :
    lookupFS (eraseFS fs p) p = none := by
  simp only [lookupFS, eraseFS]
  rw [List.find?_eq_none.mpr]
  · rfl
  · intro e he
    have := (List.mem_filter.mp he).2
    simpa using this

theorem lookupFS_renameFS_other (fs : FS) (src dst q : Path)
    (h1 : q ≠ src) (h2 : q ≠ dst) :
    lookupFS (renameFS fs src dst) q = lookupFS fs q := by
  unfold renameFS
  cases hs : lookupFS fs src with
  | none => rfl
  | some r =>
    rw [lookupFS_writeFS_ne _ _ _ _ h2, lookupFS_eraseFS_ne _ _ _ h1]

theorem idxKeys_setIdx_mem (idx : List (Nat × LocalInfo)) (n : Nat)
    (i : LocalInfo) (id : Nat) :
    id ∈ idxKeys (setIdx idx n i) ↔ id ∈ idxKeys idx ∨ id = n := by
  unfold setIdx
  by_cases hp : (idx.find? (fun e => e.1 == n)).isSome
  · rw [if_pos hp]
    obtain ⟨e, he⟩ := Option.isSome_iff_exists.mp hp
    have hen : e.1 = n := by simpa using List.find?_some he
    have hmem : n ∈ idxKeys idx := by
      rw [← hen]
      exact List.mem_map_of_mem _ (List.mem_of_find?_eq_some he)
    have hkeys : idxKeys (idx.map (fun e => if e.1 == n then (n, i) else e))
        = idxKeys idx := by
      simp only [idxKeys, List.map_map]
      apply List.map_congr_left
      intro e' _
      by_cases he' : e'.1 = n
      · simp [he']
      · simp [he']
    rw [hkeys]
    constructor
    · exact Or.inl
    · rintro (h | rfl)
      · exact h
      · exact hmem
  · rw [if_neg hp]
    simp [idxKeys]

theorem getIdx_setIdx_mono (idx : List (Nat × LocalInfo)) (n : Nat)
    (i : LocalInfo) (id : Nat) (h : id ∈ idxKeys idx) :
    id ∈ idxKeys (setIdx idx n i) :=
  (idxKeys_setIdx_mem idx n i id).mpr (Or.inl h)

/-- Characterization of one item step: presence, archived set, trace shape
and index keys. -/
theorem processItem_present (detail : Nat → IssueDetail) (st : SyncState)
    (item : SyncItem) :
    (processItem detail st item).present
      = st.present ++ (match item.content with
        | some ic => [ic.number]
        | none => []) := by
  cases hc : item.content with
  | none => simp [processItem, hc]
  | some issue => simp [processItem, hc]

theorem processItem_trace (detail : Nat → IssueDetail) (st : SyncState)
    (item : SyncItem) :
    ∃ ext, (processItem detail st item).trace = st.trace ++ ext
      ∧ (∀ e ∈ ext, ∀ id p, e ≠ Ev.delete id p)
      ∧ (∀ e ∈ ext, ∀ nn, e = Ev.procItem nn →
          (∃ ic, item.content = some ic ∧ ic.number = nn)) := by
  cases hc : item.content with
  | none => exact ⟨[], by simp [processItem, hc], by simp, by simp⟩
  | some issue =>
    refine ⟨[Ev.procItem issue.number]
      ++ (match movedOf item (locOf st item issue) with
          | some dst => [Ev.reloc (locOf st item issue).file dst]
          | none => [])
      ++ [Ev.write (locAfterMove item (locOf st item issue)).file],
      by simp [processItem, hc], ?_, ?_⟩
    · intro e he id p
      simp only [List.mem_append, List.mem_singleton] at he
      rcases he with (rfl | he) | rfl
      · exact fun h => Ev.noConfusion h
      · revert he
        cases movedOf item (locOf st item issue) with
        | some dst =>
          intro he
          simp only [List.mem_singleton] at he
          subst he
          exact fun h => Ev.noConfusion h
        | none => intro he; simp at he
      · exact fun h => Ev.noConfusion h
    · intro e he nn hnn
      simp only [List.mem_append, List.mem_singleton] at he
      rcases he with (rfl | he) | rfl
      · injection hnn with h
        exact ⟨issue, rfl, h⟩
      · revert he
        cases movedOf item (locOf st item issue) with
        | some dst =>
          intro he
          simp only [List.mem_singleton] at he
          subst he
          exact absurd hnn (fun h => Ev.noConfusion h)
        | none => intro he; simp at he
      · exact absurd hnn (fun h => Ev.noConfusion h)

theorem processItem_index_keys (detail : Nat → IssueDetail) (st : SyncState)
    (item : SyncItem) (id : Nat) :
    (id ∈ idxKeys (processItem detail st item).index →
      id ∈ idxKeys st.index ∨ (∃ ic, item.content = some ic ∧ ic.number = id))
    ∧ (id ∈ idxKeys st.index → id ∈ idxKeys (processItem detail st item).index) := by
  cases hc : item.content with
  | none =>
    constructor
    · intro h
      exact Or.inl (by simpa [processItem, hc] using h)
    · intro h
      simpa [processItem, hc] using h
  | some issue =>
    constructor
    · intro h
      simp only [processItem, hc] at h
      rcases (idxKeys_setIdx_mem _ _ _ _).mp h with h | rfl
      · exact Or.inl h
      · exact Or.inr ⟨issue, rfl, rfl⟩
    · intro h
      simp only [processItem, hc]
      exact getIdx_setIdx_mono _ _ _ _ h

theorem presentOf_cons (it : SyncItem) (ts : List SyncItem) :
    presentOf (it :: ts) = (match it.content with
      | some ic => [ic.number]
      | none => []) ++ presentOf ts := by
  cases hc : it.content <;> simp [presentOf, hc]

theorem foldl_present (detail : Nat → IssueDetail) (items : List SyncItem)
    (st : SyncState) :
    (items.foldl (processItem detail) st).present
      = st.present ++ presentOf items := by
  induction items generalizing st with
  | nil => simp [presentOf]
  | cons it ts ih =>
    rw [List.foldl_cons, ih, processItem_present]
    cases hc : it.content <;> simp [presentOf, hc]

theorem foldl_trace (detail : Nat → IssueDetail) (items : List SyncItem)
    (st : SyncState) :
    ∃ ext, (items.foldl (processItem detail) st).trace = st.trace ++ ext
      ∧ (∀ e ∈ ext, ∀ id p, e ≠ Ev.delete id p) := by
  induction items generalizing st with
  | nil => exact ⟨[], by simp, by simp⟩
  | cons it ts ih =>
    obtain ⟨e1, he1, hd1, -⟩ := processItem_trace detail st it
    obtain ⟨e2, he2, hd2⟩ := ih (processItem detail st it)
    refine ⟨e1 ++ e2, ?_, ?_⟩
    · rw [List.foldl_cons, he2, he1, List.append_assoc]
    · intro e he
      rcases List.mem_append.mp he with h | h
      · exact hd1 e h
      · exact hd2 e h

theorem foldl_index_keys (detail : Nat → IssueDetail) (items : List SyncItem)
    (st : SyncState) (id : Nat) :
    (id ∈ idxKeys (items.foldl (processItem detail) st).index →
      id ∈ idxKeys st.index ∨ id ∈ presentOf items)
    ∧ (id ∈ idxKeys st.index →
      id ∈ idxKeys (items.foldl (processItem detail) st).index) := by
  induction items generalizing st with
  | nil => exact ⟨fun h => Or.inl h, fun h => h⟩
  | cons it ts ih =>
    constructor
    · intro h
      rw [List.foldl_cons] at h
      rcases (ih (processItem detail st it)).1 h with h | h
      · rcases (processItem_index_keys detail st it id).1 h with h | ⟨ic, hic, hn⟩
        · exact Or.inl h
        · refine Or.inr ?_
          rw [presentOf_cons, hic]
          simp [hn]
      · refine Or.inr ?_
        rw [presentOf_cons]
        exact List.mem_append.mpr (Or.inr h)
    · intro h
      rw [List.foldl_cons]
      exact (ih (processItem detail st it)).2
        ((processItem_index_keys detail st it id).2 h)

theorem deletePhase_trace (st : SyncState) :
    (deletePhase st).trace = st.trace
      ++ (st.index.filter (fun e => !(st.present.contains e.1))).map
          (fun e => Ev.delete e.1 e.2.file) := rfl

/-- C5: after a Sync-from run, an indexed local record is deleted exactly
when its identifier is not among the issue numbers of the board's
issue-backed items in that pass, and every deletion event comes after every
item-processing event in the run's trace. -/
theorem syncfrom_deletes_absent_after_all_items (fs : FS)
    (items : List SyncItem) (detail : Nat → IssueDetail) :
    (∀ id p, Ev.delete id p ∈ (syncRun fs items detail).trace →
      id ∈ idxKeys (buildIndex fs) ∧ id ∉ presentOf items)
    ∧ (∀ id, id ∈ idxKeys (buildIndex fs) → id ∉ presentOf items →
      ∃ p, Ev.delete id p ∈ (syncRun fs items detail).trace)
    ∧ (∀ i j nn id p,
        (syncRun fs items detail).trace.get? i = some (Ev.procItem nn) →
        (syncRun fs items detail).trace.get? j = some (Ev.delete id p) →
        i < j) := by
  classical
  set st1 := items.foldl (processItem detail) (syncInit fs) with hst1
  have hpres : st1.present = presentOf items := by
    rw [hst1, foldl_present]
    rfl
  obtain ⟨ext1, hext1, hnodel⟩ := foldl_trace detail items (syncInit fs)
  have htr1 : st1.trace = ext1 := by
    rw [hst1, hext1]
    rfl
  have hrun : syncRun fs items detail = deletePhase st1 := rfl
  have htr : (syncRun fs items detail).trace
      = ext1 ++ (st1.index.filter (fun e => !(st1.present.contains e.1))).map
          (fun e => Ev.delete e.1 e.2.file) := by
    rw [hrun, deletePhase_trace, htr1]
  refine ⟨?_, ?_, ?_⟩
  · intro id p hmem
    rw [htr] at hmem
    rcases List.mem_append.mp hmem with h | h
    · exact absurd rfl (hnodel _ h id p)
    · obtain ⟨e, he, heq⟩ := List.mem_map.mp h
      obtain ⟨hein, hpred⟩ := List.mem_filter.mp he
      injection heq with h1 h2
      have hkey : id ∈ idxKeys st1.index := by
        rw [← h1]
        exact List.mem_map_of_mem (fun e => e.1) hein
      have hnp : id ∉ presentOf items := by
        rw [← hpres]
        intro hin
        rw [← h1] at hin
        rw [show st1.present.contains e.1 = true from List.elem_eq_true_of_mem hin]
          at hpred
        exact Bool.noConfusion hpred
      rcases (foldl_index_keys detail items (syncInit fs) id).1 (hst1 ▸ hkey) with h0 | h0
      · exact ⟨h0, hnp⟩
      · exact absurd h0 hnp
  · intro id hid hnp
    have hkey : id ∈ idxKeys st1.index :=
      (foldl_index_keys detail items (syncInit fs) id).2 hid
    obtain ⟨e, hein, hfst⟩ := List.mem_map.mp hkey
    have hpred : (!(st1.present.contains e.1)) = true := by
      have hni : e.1 ∉ st1.present := by
        rw [hfst, hpres]
        exact hnp
      cases hco : st1.present.contains e.1 with
      | false => rfl
      | true => exact absurd (List.mem_of_elem_eq_true hco) hni
    refine ⟨e.2.file, ?_⟩
    rw [htr]
    refine List.mem_append.mpr (Or.inr ?_)
    have hef : e ∈ st1.index.filter (fun e => !(st1.present.contains e.1)) :=
      List.mem_filter.mpr ⟨hein, hpred⟩
    have hmm := List.mem_map_of_mem (fun e => Ev.delete e.1 e.2.file) hef
    simpa [hfst] using hmm
  · intro i j nn id p hi hj
    rw [htr] at hi hj
    by_cases hjlt : j < ext1.length
    · rw [List.get?_append hjlt] at hj
      have : Ev.delete id p ∈ ext1 := List.get?_mem hj
      exact absurd rfl (hnodel _ this id p)
    · push_neg at hjlt
      by_cases hilt : i < ext1.length
      · omega
      · push_neg at hilt
        rw [List.get?_append_right hilt] at hi
        have hmem := List.get?_mem hi
        obtain ⟨e, -, heq⟩ := List.mem_map.mp hmem
        exact absurd heq (fun h => Ev.noConfusion h)

/-- Witness for C5 at a concrete run: record 5 is indexed but absent from
the single-item board listing, and the run's trace contains its deletion,
so the theorem yields that 5 was indexed and not present. -/
theorem syncfrom_deletes_absent_after_all_items_witness :
    5 ∈ idxKeys (buildIndex
      [(⟨"tasks", "5-old.md"⟩, ⟨{ issue := some 5 }, ""⟩),
       (⟨"tasks", "7-keep.md"⟩, ⟨{ issue := some 7 }, ""⟩)])
    ∧ 5 ∉ presentOf [⟨false, some ⟨7, "Keep", ""⟩, []⟩] :=
  (syncfrom_deletes_absent_after_all_items
    [(⟨"tasks", "5-old.md"⟩, ⟨{ issue := some 5 }, ""⟩),
     (⟨"tasks", "7-keep.md"⟩, ⟨{ issue := some 7 }, ""⟩)]
    [⟨false, some ⟨7, "Keep", ""⟩, []⟩]
    (fun _ => ⟨[], [], none, []⟩)).1 5 ⟨"tasks", "5-old.md"⟩ (by decide)

/-- C6: for a board item whose archived flag disagrees with the directory
its indexed local file resides in, the step moves the file to the matching
directory with its basename preserved, the relocation event precedes the
content rewrite in the trace, the rewrite addresses the new path (the old
path no longer holds a file), and the rewritten record carries the item's
identifier. -/
theorem relocate_before_write (detail : Nat → IssueDetail) (st : SyncState)
    (item : SyncItem) (issue : IssueContent) (hc : item.content = some issue)
    (info : LocalInfo) (hidx : getIdx st.index issue.number = some info)
    (hmis : info.archivedFlag ≠ item.isArchived)
    (hdir : info.file.dir
      = if info.archivedFlag then TASKS_ARCHIVE_DIR else TASKS_DIR)
    (r0 : Record) (hfile : lookupFS st.fs info.file = some r0) :
    ∃ dst : Path,
      dst.dir = (if item.isArchived then TASKS_ARCHIVE_DIR else TASKS_DIR)
      ∧ dst.base = info.file.base
      ∧ (processItem detail st item).trace
          = st.trace ++ [Ev.procItem issue.number, Ev.reloc info.file dst,
              Ev.write dst]
      ∧ lookupFS (processItem detail st item).fs dst
          = some ⟨mergeFm info.parsed.fm
              (itemFmUpdates issue (detail issue.number) item.fieldValues),
              info.parsed.content⟩
      ∧ lookupFS (processItem detail st item).fs info.file = none
      ∧ (mergeFm info.parsed.fm
          (itemFmUpdates issue (detail issue.number) item.fieldValues)).issue
          = some issue.number := by
  have hloc : locOf st item issue = info := by
    simp [locOf, hidx]
  cases ha : item.isArchived with
  | true =>
    have hflag : info.archivedFlag = false := by
      cases hfl : info.archivedFlag
      · rfl
      · rw [ha] at hmis; exact absurd (hfl) hmis
    have hmv : movedOf item info = some ⟨TASKS_ARCHIVE_DIR, info.file.base⟩ := by
      simp [movedOf, ha, hflag]
    have hne : (⟨TASKS_ARCHIVE_DIR, info.file.base⟩ : Path) ≠ info.file := by
      intro hpe
      have hd := congrArg Path.dir hpe
      rw [hdir, hflag] at hd
      simp [TASKS_DIR, TASKS_ARCHIVE_DIR] at hd
    refine ⟨⟨TASKS_ARCHIVE_DIR, info.file.base⟩, rfl, rfl, ?_, ?_, ?_, rfl⟩
    · simp [processItem, hc, hloc, hmv, locAfterMove]
    · simp only [processItem, hc, hloc, hmv, locAfterMove]
      rw [lookupFS_writeFS_same]
    · simp only [processItem, hc, hloc, hmv, locAfterMove]
      rw [lookupFS_writeFS_ne _ _ _ _ (Ne.symm hne)]
      rw [renameFS, hfile, lookupFS_writeFS_ne _ _ _ _ (Ne.symm hne),
        lookupFS_eraseFS_same]
  | false =>
    have hflag : info.archivedFlag = true := by
      cases hfl : info.archivedFlag
      · rw [ha] at hmis; exact absurd (hfl) hmis
      · rfl
    have hmv : movedOf item info = some ⟨TASKS_DIR, info.file.base⟩ := by
      simp [movedOf, ha, hflag]
    have hne : (⟨TASKS_DIR, info.file.base⟩ : Path) ≠ info.file := by
      intro hpe
      have hd := congrArg Path.dir hpe
      rw [hdir, hflag] at hd
      simp [TASKS_DIR, TASKS_ARCHIVE_DIR] at hd
    refine ⟨⟨TASKS_DIR, info.file.base⟩, rfl, rfl, ?_, ?_, ?_, rfl⟩
    · simp [processItem, hc, hloc, hmv, locAfterMove]
    · simp only [processItem, hc, hloc, hmv, locAfterMove]
      rw [lookupFS_writeFS_same]
    · simp only [processItem, hc, hloc, hmv, locAfterMove]
      rw [lookupFS_writeFS_ne _ _ _ _ (Ne.symm hne)]
      rw [renameFS, hfile, lookupFS_writeFS_ne _ _ _ _ (Ne.symm hne),
        lookupFS_eraseFS_same]

/-- Witness for C6 at a concrete step: an active-directory record whose
board item is archived is moved (the old path no longer resolves) with its
basename preserved. -/
theorem relocate_before_write_witness :
    ∃ dst : Path, dst.base = "9-x.md"
      ∧ lookupFS (processItem (fun _ => ⟨[], [], none, []⟩)
          (syncInit [(⟨"tasks", "9-x.md"⟩, ⟨{ issue := some 9 }, "body9"⟩)])
          ⟨true, some ⟨9, "X", "ib"⟩, []⟩).fs ⟨"tasks", "9-x.md"⟩ = none := by
  obtain ⟨dst, -, hbase, -, -, hnone, -⟩ :=
    relocate_before_write (fun _ => ⟨[], [], none, []⟩)
      (syncInit [(⟨"tasks", "9-x.md"⟩, ⟨{ issue := some 9 }, "body9"⟩)])
      ⟨true, some ⟨9, "X", "ib"⟩, []⟩ ⟨9, "X", "ib"⟩ rfl
      ⟨⟨"tasks", "9-x.md"⟩, ⟨{ issue := some 9 }, "body9"⟩, false⟩
      (by decide) (by decide) (by decide)
      ⟨{ issue := some 9 }, "body9"⟩ (by decide)
  exact ⟨dst, hbase, hnone⟩

/-- C10 counterexample: the claim allows an identifier-less file to change
only through a synthesized-filename collision.  Here no synthesis happens
(issue 5 is indexed, and the derived filename would be "5-five.md"), yet
the identifier-less file tasks/foo.md is destroyed: unarchiving the indexed
record archive/foo.md renames it onto tasks/foo.md. -/
theorem relocation_collides_identifierless :
    lookupFS (syncRun
      [(⟨"tasks", "foo.md"⟩, ⟨{}, "local notes"⟩),
       (⟨"tasks/archive", "foo.md"⟩, ⟨{ issue := some 5 }, ""⟩)]
      [⟨false, some ⟨5, "Five", ""⟩, []⟩]
      (fun _ => ⟨[], [], none, []⟩)).fs ⟨"tasks", "foo.md"⟩
      ≠ some ⟨{}, "local notes"⟩
    ∧ ({} : Fm).issue = none
    ∧ synthBase 5 "Five" ≠ "foo.md" := by
  refine ⟨?_, rfl, ?_⟩ <;> decide

theorem setIdx_mem_or (idx : List (Nat × LocalInfo)) (n : Nat) (i : LocalInfo)
    (x : Nat × LocalInfo) (hx : x ∈ setIdx idx n i) : x ∈ idx ∨ x = (n, i) := by
  unfold setIdx at hx
  by_cases hp : (idx.find? (fun e => e.1 == n)).isSome
  · rw [if_pos hp] at hx
    obtain ⟨y, hy, hyx⟩ := List.mem_map.mp hx
    by_cases hyn : (y.1 == n) = true
    · rw [if_pos hyn] at hyx
      exact Or.inr hyx.symm
    · rw [if_neg hyn] at hyx
      rw [← hyx]
      exact Or.inl hy
  · rw [if_neg hp] at hx
    rcases List.mem_append.mp hx with h | h
    · exact Or.inl h
    · right
      simpa using h

theorem getIdx_mem (idx : List (Nat × LocalInfo)) (n : Nat) (l : LocalInfo)
    (h : getIdx idx n = some l) : ∃ m, (m, l) ∈ idx := by
  unfold getIdx at h
  cases hf : idx.find? (fun e => e.1 == n) with
  | none => rw [hf] at h; exact Option.noConfusion h
  | some e =>
    rw [hf] at h
    injection h with h2
    refine ⟨e.1, ?_⟩
    rw [← h2]
    exact List.mem_of_find?_eq_some hf

theorem indexStep_mem_or (flag : Bool) (idx : List (Nat × LocalInfo))
    (e : Path × Record) (x : Nat × LocalInfo) (hx : x ∈ indexStep flag idx e) :
    x ∈ idx ∨ x.2.file = e.1 := by
  unfold indexStep at hx
  cases hi : e.2.fm.issue with
  | none => rw [hi] at hx; exact Or.inl hx
  | some n =>
    rw [hi] at hx
    dsimp only at hx
    by_cases hn : n ≠ 0
    · rw [if_pos hn] at hx
      rcases setIdx_mem_or _ _ _ _ hx with h | rfl
      · exact Or.inl h
      · exact Or.inr rfl
    · rw [if_neg hn] at hx
      exact Or.inl hx

theorem indexFold_mem (flag : Bool) (l : FS) (idx : List (Nat × LocalInfo))
    (x : Nat × LocalInfo) (hx : x ∈ l.foldl (indexStep flag) idx) :
    x ∈ idx ∨ ∃ e ∈ l, x.2.file = e.1 := by
  induction l generalizing idx with
  | nil => exact Or.inl hx
  | cons e t ih =>
    rcases ih (indexStep flag idx e) hx with h | ⟨e', he', hf⟩
    · rcases indexStep_mem_or flag idx e x h with h | h
      · exact Or.inl h
      · exact Or.inr ⟨e, List.mem_cons_self e t, h⟩
    · exact Or.inr ⟨e', List.mem_cons_of_mem e he', hf⟩

theorem buildIndex_entry_dir (fs : FS) (x : Nat × LocalInfo)
    (hx : x ∈ buildIndex fs) :
    x.2.file.dir = TASKS_DIR ∨ x.2.file.dir = TASKS_ARCHIVE_DIR := by
  unfold buildIndex indexDir at hx
  rcases indexFold_mem true _ _ x hx with h | ⟨e, he, hf⟩
  · rcases indexFold_mem false _ _ x h with h0 | ⟨e, he, hf⟩
    · simp at h0
    · left
      have := (List.mem_filter.mp he).2
      rw [hf]
      have hd := (Bool.and_eq_true _ _).mp this |>.1
      simpa using hd
  · right
    have := (List.mem_filter.mp he).2
    rw [hf]
    have hd := (Bool.and_eq_true _ _).mp this |>.1
    simpa using hd

theorem processItem_framed (detail : Nat → IssueDetail) (fs0 : FS)
    (items0 : List SyncItem) (p : Path)
    (hp : ¬ protectedPath fs0 items0 p)
    (st : SyncState) (item : SyncItem) (hit : item ∈ items0)
    (hinv : framed fs0 items0 p st) :
    framed fs0 items0 p (processItem detail st item) := by
  have hprot : ∀ q : Path,
      (q.dir = TASKS_DIR ∨ q.dir = TASKS_ARCHIVE_DIR) →
      q.base ∈ touchableBases fs0 items0 → p ≠ q := by
    intro q hqd hqb hpq
    exact hp (hpq ▸ ⟨hqd, hqb⟩)
  cases hc : item.content with
  | none => simpa [processItem, hc] using hinv
  | some issue =>
    have hloc0 : ((locOf st item issue).file.dir = TASKS_DIR
          ∨ (locOf st item issue).file.dir = TASKS_ARCHIVE_DIR)
        ∧ (locOf st item issue).file.base ∈ touchableBases fs0 items0 := by
      unfold locOf
      cases hg : getIdx st.index issue.number with
      | some l =>
        obtain ⟨m, hm⟩ := getIdx_mem st.index issue.number l hg
        exact hinv.1 (m, l) hm
      | none =>
        constructor
        · cases item.isArchived
          · exact Or.inl rfl
          · exact Or.inr rfl
        · refine List.mem_append.mpr (Or.inr ?_)
          exact List.mem_filterMap.mpr ⟨item, hit, by rw [hc]; rfl⟩
    have hloc1 : ((locAfterMove item (locOf st item issue)).file.dir = TASKS_DIR
          ∨ (locAfterMove item (locOf st item issue)).file.dir = TASKS_ARCHIVE_DIR)
        ∧ (locAfterMove item (locOf st item issue)).file.base
            ∈ touchableBases fs0 items0 := by
      unfold locAfterMove movedOf
      by_cases h1 : item.isArchived = true ∧ (locOf st item issue).archivedFlag = false
      · rw [if_pos h1]
        exact ⟨Or.inr rfl, hloc0.2⟩
      · rw [if_neg h1]
        by_cases h2 : item.isArchived = false ∧ (locOf st item issue).archivedFlag = true
        · rw [if_pos h2]
          exact ⟨Or.inl rfl, hloc0.2⟩
        · rw [if_neg h2]
          exact hloc0
    constructor
    · intro e he
      simp only [processItem, hc] at he
      rcases setIdx_mem_or _ _ _ _ he with h | rfl
      · exact hinv.1 e h
      · exact hloc1
    · simp only [processItem, hc]
      rw [lookupFS_writeFS_ne _ _ _ _ (hprot _ hloc1.1 hloc1.2)]
      cases hmv : movedOf item (locOf st item issue) with
      | none => exact hinv.2
      | some dst =>
        have hdst : (dst.dir = TASKS_DIR ∨ dst.dir = TASKS_ARCHIVE_DIR)
            ∧ dst.base ∈ touchableBases fs0 items0 := by
          unfold movedOf at hmv
          by_cases h1 : item.isArchived = true
              ∧ (locOf st item issue).archivedFlag = false
          · rw [if_pos h1] at hmv
            injection hmv with h
            subst h
            exact ⟨Or.inr rfl, hloc0.2⟩
          · rw [if_neg h1] at hmv
            by_cases h2 : item.isArchived = false
                ∧ (locOf st item issue).archivedFlag = true
            · rw [if_pos h2] at hmv
              injection hmv with h
              subst h
              exact ⟨Or.inl rfl, hloc0.2⟩
            · rw [if_neg h2] at hmv
              exact Option.noConfusion hmv
        rw [lookupFS_renameFS_other _ _ _ _
          (hprot _ hloc0.1 hloc0.2) (hprot _ hdst.1 hdst.2)]
        exact hinv.2

theorem foldl_framed (detail : Nat → IssueDetail) (fs0 : FS)
    (items0 : List SyncItem) (p : Path)
    (hp : ¬ protectedPath fs0 items0 p)
    (l : List SyncItem) (hl : ∀ it ∈ l, it ∈ items0)
    (st : SyncState) (hinv : framed fs0 items0 p st) :
    framed fs0 items0 p (l.foldl (processItem detail) st) := by
  induction l generalizing st with
  | nil => exact hinv
  | cons it ts ih =>
    rw [List.foldl_cons]
    exact ih (fun x hx => hl x (List.mem_cons_of_mem it hx))
      (processItem detail st it)
      (processItem_framed detail fs0 items0 p hp st it
        (hl it (List.mem_cons_self it ts)) hinv)

theorem deletePhase_framed (fs0 : FS) (items0 : List SyncItem) (p : Path)
    (hp : ¬ protectedPath fs0 items0 p)
    (st : SyncState) (hinv : framed fs0 items0 p st) :
    lookupFS (deletePhase st).fs p = lookupFS fs0 p := by
  have hprot : ∀ q : Path,
      (q.dir = TASKS_DIR ∨ q.dir = TASKS_ARCHIVE_DIR) →
      q.base ∈ touchableBases fs0 items0 → p ≠ q := by
    intro q hqd hqb hpq
    exact hp (hpq ▸ ⟨hqd, hqb⟩)
  have haux : ∀ (l : List (Nat × LocalInfo)), (∀ e ∈ l, e ∈ st.index) →
      ∀ fsx : FS, lookupFS (l.foldl (fun fs e => eraseFS fs e.2.file) fsx) p
        = lookupFS fsx p := by
    intro l
    induction l with
    | nil => intro _ fsx; rfl
    | cons e t ih =>
      intro hl fsx
      rw [List.foldl_cons, ih (fun x hx => hl x (List.mem_cons_of_mem e hx))]
      have he := hinv.1 e (hl e (List.mem_cons_self e t))
      exact lookupFS_eraseFS_ne fsx e.2.file p (hprot _ he.1 he.2)
  unfold deletePhase
  rw [haux _ (fun e he => (List.mem_filter.mp he).1) st.fs]
  exact hinv.2

/-- C10 (amended): a Sync-from run can change, move or delete a file only
at a protected path — a path in one of the two managed directories whose
basename is either the basename of an identifier-indexed file (relocation
targets included) or the derived filename of one of the run's issue-backed
items.  Every other file — in particular an identifier-less file at any
other path — is left exactly as it was. -/
theorem syncfrom_frame (fs : FS) (items : List SyncItem)
    (detail : Nat → IssueDetail) (p : Path)
    (hp : ¬ protectedPath fs items p) :
    lookupFS (syncRun fs items detail).fs p = lookupFS fs p := by
  have hinit : framed fs items p (syncInit fs) := by
    constructor
    · intro e he
      refine ⟨buildIndex_entry_dir fs e he, ?_⟩
      refine List.mem_append.mpr (Or.inl ?_)
      exact List.mem_map_of_mem (fun e => e.2.file.base) he
    · rfl
  exact deletePhase_framed fs items p hp _
    (foldl_framed detail fs items p hp items (fun _ h => h) (syncInit fs) hinit)

/-- Witness for the amended C10 theorem: an identifier-less file whose path
is not touchable survives the run unchanged. -/
theorem syncfrom_frame_witness :
    lookupFS (syncRun
      [(⟨"tasks", "untracked.md"⟩, ⟨{}, "notes"⟩),
       (⟨"tasks", "7-a.md"⟩, ⟨{ issue := some 7 }, ""⟩)]
      [⟨false, some ⟨7, "A", ""⟩, []⟩]
      (fun _ => ⟨[], [], none, []⟩)).fs ⟨"tasks", "untracked.md"⟩
      = lookupFS
      [(⟨"tasks", "untracked.md"⟩, ⟨{}, "notes"⟩),
       (⟨"tasks", "7-a.md"⟩, ⟨{ issue := some 7 }, ""⟩)]
      ⟨"tasks", "untracked.md"⟩ :=
  syncfrom_frame
    [(⟨"tasks", "untracked.md"⟩, ⟨{}, "notes"⟩),
     (⟨"tasks", "7-a.md"⟩, ⟨{ issue := some 7 }, ""⟩)]
    [⟨false, some ⟨7, "A", ""⟩, []⟩]
    (fun _ => ⟨[], [], none, []⟩) ⟨"tasks", "untracked.md"⟩
    (by unfold protectedPath; decide)

theorem goodR_pret {α : Type} (a : α) : goodR (pret a) := by
  intro _ c b hmem
  simp [pret] at hmem

theorem goodR_pbind {α β : Type} (x : PRes α) (f : α → PRes β)
    (hx : goodR x) (hf : ∀ a, goodR (f a)) : goodR (pbind x f) := by
  rcases x with ⟨tr, r⟩
  cases r with
  | none => intro h; simp [pbind] at h
  | some a =>
    rcases hfa : f a with ⟨tr2, r2⟩
    intro h
    simp only [pbind, hfa] at h ⊢
    intro c b hmem hex
    rcases List.mem_append.mp hmem with hm | hm
    · exact hx rfl c b hm hex
    · have := hf a
      rw [hfa] at this
      exact this h c b hm hex

theorem goodR_pcall (fails : ApiCall → Bool) (c : ApiCall) :
    goodR (pcall fails c) := by
  unfold goodR pcall
  by_cases hf : fails c = true
  · rw [if_pos hf]
    intro h
    simp at h
  · rw [if_neg hf]
    intro _ c' b hmem _
    simp only [List.mem_singleton, PEv.api.injEq] at hmem
    exact hmem.2

theorem goodR_pcallSoft_exempt (fails : ApiCall → Bool) (c : ApiCall)
    (hex : exemptCall c = true) : goodR (pcallSoft fails c) := by
  intro _ c' b hmem hex'
  simp only [pcallSoft, List.mem_singleton] at hmem
  injection hmem with h1 h2
  subst h1
  rw [hex] at hex'
  exact Bool.noConfusion hex'

theorem ensureLabelsLoop_exempt (fails : ApiCall → Bool)
    (names labels : List String) (rs : RemoteState) :
    ∀ e ∈ (ensureLabelsLoop fails names labels rs).1,
      ∃ nm bb, e = PEv.api (.createLabel nm) bb := by
  induction labels generalizing rs with
  | nil => intro e he; simp [ensureLabelsLoop] at he
  | cons lb rest ih =>
    intro e he
    unfold ensureLabelsLoop at he
    by_cases hc : ((names.map jsToLower).contains (jsToLower lb)) = true
    · rw [if_pos hc] at he
      exact ih rs e he
    · rw [if_neg hc] at he
      by_cases hf : fails (.createLabel lb) = true
      · rw [if_pos hf] at he
        simp only [List.mem_singleton] at he
        exact ⟨lb, false, he⟩
      · rw [if_neg hf] at he
        rcases hloop : ensureLabelsLoop fails names rest
            { rs with repoLabels := rs.repoLabels ++ [lb] } with ⟨tr, rs2⟩
        rw [hloop] at he
        simp only [List.mem_cons] at he
        rcases he with rfl | he
        · exact ⟨lb, true, rfl⟩
        · exact ih _ e (by rw [hloop]; exact he)

theorem goodR_ensureLabels (fails : ApiCall → Bool) (labels : List String)
    (rs : RemoteState) : goodR (ensureLabels fails labels rs) := by
  intro _ c b hmem hex
  unfold ensureLabels at hmem
  by_cases he : labels.isEmpty = true
  · rw [if_pos he] at hmem
    simp [pret] at hmem
  · rw [if_neg he] at hmem
    by_cases hf : fails .listLabelsForRepo = true
    · rw [if_pos hf] at hmem
      simp only [List.mem_singleton] at hmem
      injection hmem with h1 h2
      subst h1
      simp [exemptCall] at hex
    · rw [if_neg hf] at hmem
      rcases hl : ensureLabelsLoop fails rs.repoLabels labels rs with ⟨tr, rs2⟩
      rw [hl] at hmem
      simp only [List.mem_cons] at hmem
      rcases hmem with heq | hmem
      · simp only [PEv.api.injEq] at heq
        exact heq.2
      · obtain ⟨nm, bb, he2⟩ := ensureLabelsLoop_exempt fails rs.repoLabels
          labels rs (PEv.api c b) (by rw [hl]; exact hmem)
        simp only [PEv.api.injEq] at he2
        rw [he2.1] at hex
        simp [exemptCall] at hex

theorem goodR_setIssueBasics (fails : ApiCall → Bool) (n : Nat)
    (assignees labels : List String) (ms : String) (rs : RemoteState) :
    goodR (setIssueBasics fails n assignees labels ms rs) := by
  unfold setIssueBasics
  refine goodR_pbind _ _ ?_ (fun rs1 => ?_)
  · by_cases he : labels.isEmpty = true
    · rw [if_pos he]; exact goodR_pret rs
    · rw [if_neg he]; exact goodR_ensureLabels fails labels rs
  · refine goodR_pbind _ _ ?_ (fun _ => ?_)
    · by_cases hm : ms ≠ ""
      · rw [if_pos hm]; exact goodR_pcall fails .listMilestones
      · rw [if_neg hm]; exact goodR_pret ()
    · exact goodR_pbind _ _ (goodR_pcall fails (.updateIssue n))
        (fun _ => goodR_pret rs1)

theorem goodR_upsertCommentT (fails : ApiCall → Bool) (n : Nat)
    (header bodyText : String) (rs : RemoteState) :
    goodR (upsertCommentT fails n header bodyText rs) := by
  unfold upsertCommentT
  by_cases hb : mdToBoolS bodyText = false
  · rw [if_pos hb]; exact goodR_pret rs
  · rw [if_neg hb]
    refine goodR_pbind _ _ (goodR_pcall fails (.listComments n)) (fun _ => ?_)
    refine goodR_pbind _ _ ?_ (fun _ => goodR_pret _)
    cases (getComments rs n).find? (fun c => jsStartsWith c (marker header)) with
    | some c => exact goodR_pcall fails (.updateComment n)
    | none => exact goodR_pcall fails (.createComment n)

theorem goodR_pushFieldsT (fails : ApiCall → Bool) (schema : Schema)
    (entries : List (String × Option JVal)) :
    goodR (pushFieldsT fails schema entries) := by
  induction entries with
  | nil => exact goodR_pret ()
  | cons e rest ih =>
    obtain ⟨name, val⟩ := e
    unfold pushFieldsT
    refine goodR_pbind _ _ ?_ (fun _ => ih)
    cases fieldMapGet schema name with
    | none => cases val <;> exact goodR_pret ()
    | some fd =>
      cases val with
      | none => exact goodR_pret ()
      | some v =>
        dsimp only
        by_cases hb : mdToBoolJ (some v) = true
        · rw [if_pos hb]
          cases setFieldValue (some fd) v with
          | none => exact goodR_pret ()
          | some fv => exact goodR_pcall fails (.setField name)
        · rw [if_neg hb]
          exact goodR_pret ()

theorem goodR_focSearchT (fails : ApiCall → Bool) (rs : RemoteState)
    (t : String) (f : PopFile) : goodR (focSearchT fails rs t f) := by
  unfold focSearchT
  refine goodR_pbind _ _ (goodR_pcall fails (.searchIssues t)) (fun _ => ?_)
  cases searchHit rs.store t with
  | some hit => exact goodR_pret _
  | none =>
    refine goodR_pbind _ _ (goodR_pcall fails (.createIssue t)) (fun _ => ?_)
    intro _ c b hmem _
    simp only [List.mem_singleton] at hmem
    exact absurd hmem (fun h => PEv.noConfusion h)

theorem goodR_focT (fails : ApiCall → Bool) (rs : RemoteState)
    (ex : Option Nat) (t bd : String) (f : PopFile) :
    goodR (focT fails rs ex t bd f) := by
  have hvs : goodR (focSearchT fails rs t f) := goodR_focSearchT fails rs t f
  unfold focT
  cases ex with
  | none => exact hvs
  | some n =>
    dsimp only
    by_cases hn : n ≠ 0
    · rw [if_pos hn]
      cases hg : (if fails (.issuesGet n) then none else getIssue rs.store n) with
      | some i =>
        dsimp only
        intro _ c b hmem hex
        simp only [List.mem_singleton, PEv.api.injEq] at hmem
        exact hmem.2
      | none =>
        dsimp only
        refine goodR_pbind _ _ ?_ (fun _ => hvs)
        intro _ c b hmem hex
        simp only [List.mem_singleton, PEv.api.injEq] at hmem
        rw [hmem.1] at hex
        simp [exemptCall] at hex
    · rw [if_neg hn]
      exact hvs

theorem goodR_runRecordT (fails : ApiCall → Bool) (w : PopWorld)
    (rs : RemoteState) (f : PopFile) : goodR (runRecordT fails w rs f) := by
  unfold runRecordT
  refine goodR_pbind _ _ (goodR_focT _ _ _ _ _ _) (fun x => ?_)
  refine goodR_pbind _ _ (goodR_pcall _ _) (fun _ => ?_)
  refine goodR_pbind _ _ (goodR_setIssueBasics _ _ _ _ _ _) (fun rs2 => ?_)
  refine goodR_pbind _ _ ?_ (fun rs3 => ?_)
  · cases f.fm.relationships with
    | none => exact goodR_pret rs2
    | some rels =>
      dsimp only
      by_cases hr : rels.isEmpty = true
      · rw [if_pos hr]; exact goodR_pret rs2
      · rw [if_neg hr]; exact goodR_upsertCommentT _ _ _ _ _
  · refine goodR_pbind _ _ ?_ (fun rs4 => ?_)
    · by_cases hc : mdToBoolJ f.fm.comments = true
      · rw [if_pos hc]; exact goodR_upsertCommentT _ _ _ _ _
      · rw [if_neg hc]; exact goodR_pret rs3
    · exact goodR_pbind _ _ (goodR_pushFieldsT _ _ _) (fun _ => goodR_pret _)

theorem goodR_getProjectNodeT (fails : ApiCall → Bool) :
    goodR (getProjectNodeT fails) := by
  unfold getProjectNodeT
  refine goodR_pbind _ _ (goodR_pcallSoft_exempt fails .orgLookup rfl) (fun ok1 => ?_)
  cases ok1
  · rw [if_neg (by decide : ¬ (false = true))]
    refine goodR_pbind _ _ (goodR_pcallSoft_exempt fails .userLookup rfl) (fun ok2 => ?_)
    cases ok2
    · rw [if_neg (by decide : ¬ (false = true))]
      intro h
      simp at h
    · rw [if_pos rfl]
      exact goodR_pret ()
  · rw [if_pos rfl]
    exact goodR_pret ()

theorem goodR_runRecords (fails : ApiCall → Bool) (w : PopWorld)
    (files : List PopFile) (rs : RemoteState) :
    goodR (runRecords fails w rs files) := by
  induction files generalizing rs with
  | nil => exact goodR_pret rs
  | cons f rest ih =>
    exact goodR_pbind _ _ (goodR_runRecordT fails w rs f) (fun x => ih x.1)

/-- `pbind` on a successful first component, in applied form. -/
theorem pbind_pair {α β : Type} (tr : List PEv) (a : α) (g : α → PRes β) :
    pbind (tr, some a) g = (tr ++ (g a).1, (g a).2) := by
  rcases hg : g a with ⟨tr2, r⟩
  simp [pbind, hg]

/-- A successful `pbind` factors into a successful first and second stage. -/
theorem pbind_some {α β : Type} (u : PRes α) (v : α → PRes β) (y : β)
    (h : (pbind u v).2 = some y) :
    ∃ a, u.2 = some a ∧ (v a).2 = some y := by
  rcases u with ⟨tr, r⟩
  cases r with
  | none => exact Option.noConfusion h
  | some a =>
    rw [pbind_pair] at h
    exact ⟨a, rfl, h⟩

/-- The trace of a `pbind` whose first stage succeeded. -/
theorem pbind_fst {α β : Type} (u : PRes α) (v : α → PRes β) (a : α)
    (hu : u.2 = some a) : (pbind u v).1 = u.1 ++ (v a).1 := by
  rcases u with ⟨tr, r⟩
  cases r with
  | none => exact Option.noConfusion hu
  | some a2 =>
    have h2 : a2 = a := Option.some.inj hu
    subst h2
    rw [pbind_pair]

theorem pcall_ok (fails : ApiCall → Bool) (c : ApiCall)
    (hf : fails c = false) : pcall fails c = ([PEv.api c true], some ()) := by
  unfold pcall
  rw [if_neg (by simp [hf])]

theorem pcall_fail (fails : ApiCall → Bool) (c : ApiCall)
    (hf : fails c = true) : pcall fails c = ([PEv.api c false], none) := by
  unfold pcall
  rw [if_pos hf]

/-- When the search-then-create tail reports `created = true`, the issue
got the store's next number, that number was written into the file's
issue header, and the trace is exactly search, create, write-back: the
write-back is adjacent to the creation. -/
theorem focSearchT_created (fails : ApiCall → Bool) (rs : RemoteState)
    (t : String) (f : PopFile) (rs' : RemoteState) (f' : PopFile) (n : Nat)
    (h : (focSearchT fails rs t f).2 = some (rs', f', n, true)) :
    n = rs.store.nextNumber
    ∧ f'.fm.issue = some rs.store.nextNumber
    ∧ (focSearchT fails rs t f).1
        = [PEv.api (ApiCall.searchIssues t) true,
           PEv.api (ApiCall.createIssue t) true,
           PEv.fileWrite rs.store.nextNumber] := by
  by_cases hf : fails (ApiCall.searchIssues t) = true
  · rw [show focSearchT fails rs t f
        = (([PEv.api (ApiCall.searchIssues t) false], none) : PRes _) from by
      unfold focSearchT
      rw [pcall_fail fails _ hf]
      rfl] at h
    exact Option.noConfusion h
  · rw [Bool.not_eq_true] at hf
    unfold focSearchT at h ⊢
    rw [pcall_ok fails _ hf, pbind_pair] at h ⊢
    dsimp only at h ⊢
    cases hs : searchHit rs.store t with
    | some hit =>
      exfalso
      rw [hs] at h
      dsimp only [pret] at h
      have h2 := Option.some.inj h
      simp only [Prod.mk.injEq] at h2
      exact Bool.noConfusion h2.2.2.2
    | none =>
      rw [hs] at h
      dsimp only at h ⊢
      by_cases hc : fails (ApiCall.createIssue t) = true
      · rw [pcall_fail fails _ hc] at h
        exact Option.noConfusion h
      · rw [Bool.not_eq_true] at hc
        rw [pcall_ok fails _ hc, pbind_pair] at h ⊢
        dsimp only at h ⊢
        have h2 := Option.some.inj h
        simp only [Prod.mk.injEq] at h2
        obtain ⟨hr, hfe, hne, -⟩ := h2
        refine ⟨hne.symm, ?_, rfl⟩
        rw [← hfe]

/-- `focSearchT_created` lifted over the stored-identifier branches of
`findOrCreateIssue`: on creation the write-back immediately follows the
successful create call and nothing earlier in the trace writes a file. -/
theorem focT_created (fails : ApiCall → Bool) (rs : RemoteState)
    (ex : Option Nat) (t bd : String) (f : PopFile)
    (rs' : RemoteState) (f' : PopFile) (n : Nat)
    (h : (focT fails rs ex t bd f).2 = some (rs', f', n, true)) :
    n = rs.store.nextNumber
    ∧ f'.fm.issue = some rs.store.nextNumber
    ∧ ∃ tr1, (focT fails rs ex t bd f).1
        = tr1 ++ [PEv.api (ApiCall.createIssue t) true,
                  PEv.fileWrite rs.store.nextNumber]
      ∧ ∀ m, PEv.fileWrite m ∉ tr1 := by
  unfold focT at h ⊢
  cases ex with
  | none =>
    obtain ⟨h1, h2, h3⟩ := focSearchT_created fails rs t f rs' f' n h
    refine ⟨h1, h2, [PEv.api (ApiCall.searchIssues t) true], by rw [h3]; rfl, ?_⟩
    intro m hm
    simp only [List.mem_singleton] at hm
    exact PEv.noConfusion hm
  | some n0 =>
    dsimp only at h ⊢
    by_cases hn : n0 ≠ 0
    · rw [if_pos hn] at h ⊢
      cases hg : (if fails (ApiCall.issuesGet n0) then none
          else getIssue rs.store n0) with
      | some i =>
        exfalso
        rw [hg] at h
        dsimp only at h
        have h2 := Option.some.inj h
        simp only [Prod.mk.injEq] at h2
        exact Bool.noConfusion h2.2.2.2
      | none =>
        rw [hg] at h
        dsimp only at h ⊢
        rw [pbind_pair] at h ⊢
        dsimp only at h ⊢
        obtain ⟨h1, h2, h3⟩ := focSearchT_created fails rs t f rs' f' n h
        refine ⟨h1, h2,
          [PEv.api (ApiCall.issuesGet n0) false,
           PEv.api (ApiCall.searchIssues t) true], by rw [h3]; rfl, ?_⟩
        intro m hm
        simp only [List.mem_cons, List.not_mem_nil, or_false] at hm
        rcases hm with hm | hm <;> exact PEv.noConfusion hm
    · rw [if_neg hn] at h ⊢
      obtain ⟨h1, h2, h3⟩ := focSearchT_created fails rs t f rs' f' n h
      refine ⟨h1, h2, [PEv.api (ApiCall.searchIssues t) true], by rw [h3]; rfl, ?_⟩
      intro m hm
      simp only [List.mem_singleton] at hm
      exact PEv.noConfusion hm

/-- C8 (amended): in the full populate script, whenever processing a
record reports that it created a new issue, the issue got the store's
next number, that number was written back into the record's file (the
returned file's issue header carries it), and in the record's event trace
the local write-back directly follows the successful creation call —
before any further remote operation for that record — while no earlier
event writes a file.  The populate-kanban variant creates without any
write-back: see the counterexample. -/
theorem writeback_immediately_after_create (fails : ApiCall → Bool)
    (w : PopWorld) (rs : RemoteState) (f : PopFile)
    (rs' : RemoteState) (f' : PopFile)
    (h : (runRecordT fails w rs f).2 = some (rs', f', true)) :
    f'.fm.issue = some rs.store.nextNumber
    ∧ ∃ tr1 tr2, (runRecordT fails w rs f).1
        = tr1 ++ PEv.api (ApiCall.createIssue (jsTrim (match f.fm.title with
            | some t => t
            | none => stripMd f.base))) true
          :: PEv.fileWrite rs.store.nextNumber :: tr2
      ∧ ∀ m, PEv.fileWrite m ∉ tr1 := by
  unfold runRecordT at h ⊢
  dsimp only at h ⊢
  obtain ⟨x, hx, h2⟩ := pbind_some _ _ _ h
  obtain ⟨u1, hu1, h2⟩ := pbind_some _ _ _ h2
  obtain ⟨rs2, hrs2, h2⟩ := pbind_some _ _ _ h2
  obtain ⟨rs3, hrs3, h2⟩ := pbind_some _ _ _ h2
  obtain ⟨rs4, hrs4, h2⟩ := pbind_some _ _ _ h2
  obtain ⟨u2, hu2, h2⟩ := pbind_some _ _ _ h2
  have h3 := Option.some.inj h2
  simp only [Prod.mk.injEq] at h3
  obtain ⟨-, hf', hcr⟩ := h3
  rcases x with ⟨xrs, xf, xn, xcr⟩
  dsimp only at hf' hcr
  subst hcr
  obtain ⟨h1, hIss, tr1, htr, hnw⟩ :=
    focT_created fails rs f.fm.issue _ _ f xrs xf xn hx
  rw [pbind_fst _ _ _ hx, htr, List.append_assoc, List.cons_append,
    List.cons_append, List.nil_append]
  exact ⟨by rw [← hf']; exact hIss, tr1, _, rfl, hnw⟩

/-- C9 (amended): in a populate run, a failed remote API call aborts the
whole run and the failure is reported, except at the call sites whose
failures the script deliberately catches —  the two scoped board lookups,
the stored-identifier verification get, and the label listing/creation
inside ensureLabels.  Hence when a run completes successfully, every
non-exempt call it made succeeded; equivalently, a failed non-exempt call
never lets the run continue to completion. -/
theorem populate_nonexempt_failure_aborts (fails : ApiCall → Bool)
    (w : PopWorld) (rs : RemoteState) (files : List PopFile) :
    (runMainT fails w rs files).2.isSome = true →
      ∀ c b, PEv.api c b ∈ (runMainT fails w rs files).1 →
        exemptCall c = false → b = true := by
  have : goodR (runMainT fails w rs files) := by
    unfold runMainT
    refine goodR_pbind _ _ (goodR_getProjectNodeT fails) (fun _ => ?_)
    exact goodR_pbind _ _ (goodR_pcall fails .getFields)
      (fun _ => goodR_runRecords fails w files rs)
  exact this

/-- C8 counterexample: processing `c8File` (no stored identifier, title
"alpha") with populate-kanban creates issue 1, yet its event trace
contains no file write at all — the new number is never persisted back
into the record, so the claimed immediate write-back does not happen in
this script. -/
theorem kanban_creates_without_writeback :
    ((kanbanRecordT (fun _ => false) c8StatusField ⟨⟨[], 1⟩, [], []⟩ c8File).2
      = some (⟨⟨[⟨1, "alpha", false⟩], 2⟩, [], []⟩, true))
    ∧ (kanbanRecordT (fun _ => false) c8StatusField
        ⟨⟨[], 1⟩, [], []⟩ c8File).1.countP
        (fun e => match e with | PEv.fileWrite _ => true | _ => false) = 0 := by
  decide

/-- Witness: a full-populate run on one identifier-less record creates
issue 1 and the amended write-back conclusion holds there. -/
theorem writeback_immediately_after_create_witness :
    ((runRecordT (fun _ => false) ⟨[], []⟩ ⟨⟨[], 1⟩, [], []⟩
        ⟨"alpha.md", {}, "b"⟩).2
      = some (⟨⟨[⟨1, "alpha", false⟩], 2⟩, [], []⟩,
          ⟨"alpha.md", { issue := some 1 }, "b"⟩, true))
    ∧ ((⟨"alpha.md", { issue := some 1 }, "b"⟩ : PopFile).fm.issue = some 1
      ∧ ∃ tr1 tr2, (runRecordT (fun _ => false) ⟨[], []⟩ ⟨⟨[], 1⟩, [], []⟩
            ⟨"alpha.md", {}, "b"⟩).1
          = tr1 ++ PEv.api (ApiCall.createIssue "alpha") true
            :: PEv.fileWrite 1 :: tr2
        ∧ ∀ m, PEv.fileWrite m ∉ tr1) :=
  ⟨by decide,
   writeback_immediately_after_create (fun _ => false) ⟨[], []⟩
     ⟨⟨[], 1⟩, [], []⟩ ⟨"alpha.md", {}, "b"⟩
     ⟨⟨[⟨1, "alpha", false⟩], 2⟩, [], []⟩
     ⟨"alpha.md", { issue := some 1 }, "b"⟩ (by decide)⟩

/-- C9 counterexample: with every label-creation call failing, a populate
run over `c9File` still completes (the result is `some`), although its
trace records the failed non-exempt-looking `createLabel` call —
`ensureLabels` catches and ignores the failure, contradicting the claim
that every failed call outside the two scoped board lookups aborts the
run. -/
theorem label_failure_does_not_abort :
    ((runMainT c9Fails ⟨[], []⟩ ⟨⟨[], 1⟩, [], []⟩ [c9File]).2.isSome = true)
    ∧ PEv.api (ApiCall.createLabel "bug") false
      ∈ (runMainT c9Fails ⟨[], []⟩ ⟨⟨[], 1⟩, [], []⟩ [c9File]).1 := by
  decide

/-- Witness: on an all-successful run the amended no-caught-failure
conclusion holds at the successful `getFields` event. -/
theorem populate_nonexempt_failure_aborts_witness :
    ((runMainT (fun _ => false) ⟨[], []⟩ ⟨⟨[], 1⟩, [], []⟩ []).2.isSome = true)
    ∧ (true : Bool) = true :=
  ⟨by decide,
   populate_nonexempt_failure_aborts (fun _ => false) ⟨[], []⟩ ⟨⟨[], 1⟩, [], []⟩ []
     (by decide) ApiCall.getFields true (by decide) (by decide)⟩

end Sync


